import Mathlib

/-!
Shallow embedding of the Text-Track diff engine.

Source files embedded here:
- `src/js/app.js`, the `Tokenizer` object (paragraph splitting, word
  tokenization, djb2 fingerprinting);
- `src/js/diff-engine.js`, the `DiffEngine` object (Myers word diff,
  move detection, paragraph alignment, statistics).

Modelling conventions:
- A JavaScript string is a list of Unicode code points (`Str`).  The
  operations that work on UTF-16 code units (`charCodeAt`, used by
  `Tokenizer.fingerprint`) go through an explicit UTF-16 encoding of the
  code-point list.
- JavaScript numbers that hold sums of 32-bit values are modelled as exact
  integers (`Int`).  The 32-bit wrap of `<<` and `>>> 0` is modelled with
  explicit `% 2^32` arithmetic (`toInt32`, `toUint32`).
- The `Map` keyed by diagonal used by the Myers loop is modelled as a total
  function `Int → Nat`; the JS code reads it as `V.get(k) || 0`, so absent
  keys and stored zeroes are both 0, which the total function represents
  exactly.  The initial map `{1 ↦ 0}` is therefore the constant-0 function.
- `while` loops whose bound is data dependent are written with an explicit
  fuel argument that is provably sufficient; all definitions are executable.
- Floating-point similarity scores are modelled as exact rationals; the
  claims proved below do not depend on rounding of the quotient.
-/

/-- A JavaScript string, as its list of Unicode code points. -/
abbrev Str : Type := List Nat

/-- Code points of a Lean string literal, used to write concrete inputs. -/
def str (s : String) : Str := s.data.map Char.toNat

namespace Tokenizer

/-- The JS `\s` (and `String.trim`) whitespace class, by code point. -/
def isWsCp (c : Nat) : Bool :=
  List.contains [0x9, 0xA, 0xB, 0xC, 0xD, 0x20, 0xA0, 0x1680,
    0x2028, 0x2029, 0x202F, 0x205F, 0x3000, 0xFEFF] c
  || (Nat.ble 0x2000 c && Nat.ble c 0x200A)

/-- Fragment of the Unicode property `\p{L}` (letters) covering the ASCII,
Latin-1, Latin extended, Greek and Gothic ranges; the Gothic block
U+10330..U+1034A consists of astral (non-BMP) letters, matched by the `u`-flag
regex in the source. -/
def isLetterCp (c : Nat) : Bool :=
  (Nat.ble 0x41 c && Nat.ble c 0x5A) || (Nat.ble 0x61 c && Nat.ble c 0x7A) ||
  (Nat.ble 0xC0 c && Nat.ble c 0xD6) || (Nat.ble 0xD8 c && Nat.ble c 0xF6) ||
  (Nat.ble 0xF8 c && Nat.ble c 0x2AF) ||
  (Nat.ble 0x391 c && Nat.ble c 0x3A1) || (Nat.ble 0x3B1 c && Nat.ble c 0x3C9) ||
  (Nat.ble 0x10330 c && Nat.ble c 0x1034A)

/-- Fragment of the Unicode property `\p{N}` (numbers): the ASCII digits. -/
def isDigitCp (c : Nat) : Bool := Nat.ble 0x30 c && Nat.ble c 0x39

/-- The class kept by the normalization regex `[^\p{L}\p{N}\s]` (complement). -/
def keepCp (c : Nat) : Bool := isLetterCp c || isDigitCp c || isWsCp c

/-- `String.prototype.toLowerCase` on one code point (ASCII fragment of the
Unicode case mapping; identity elsewhere, in particular on the caseless
Gothic letters used below). -/
def lowerChar (c : Nat) : Nat := if 0x41 ≤ c ∧ c ≤ 0x5A then c + 0x20 else c

/-- `text.replace(/\r\n/g, '\n')`: left-to-right non-overlapping replacement. -/
def replaceCRLF : Str → Str
  | 13 :: 10 :: rest => 10 :: replaceCRLF rest
  | c :: rest => c :: replaceCRLF rest
  | [] => []

/-- `trim()`: drop leading and trailing `\s` characters. -/
def trim (s : Str) : Str :=
  ((s.dropWhile isWsCp).reverse.dropWhile isWsCp).reverse

/-- One step of `split(/\n\s*\n/)`: scanning the remaining input `s` with the
current piece accumulated (reversed) in `cur`.  A separator match at a `\n`
exists when the maximal whitespace run after it contains another `\n`; the
greedy `\s*` makes the match extend to the last `\n` of that run. -/
def splitBlankAux : Nat → Str → Str → List Str
  | _, cur, [] => [cur.reverse]
  | 0, cur, s => [cur.reverse ++ s]
  | fuel + 1, cur, c :: rest =>
    if c = 10 then
      let run := rest.takeWhile isWsCp
      if run.contains 10 then
        let lastNl := run.length - 1 - (List.indexOf 10 run.reverse)
        cur.reverse :: splitBlankAux fuel [] (rest.drop (lastNl + 1))
      else splitBlankAux fuel (c :: cur) rest
    else splitBlankAux fuel (c :: cur) rest

/-- `text.split(/\n\s*\n/)` after CRLF normalization. -/
def splitBlank (s : Str) : List Str := splitBlankAux s.length [] s

/-- `Tokenizer.splitParagraphs`: normalize line endings, split on blank-line
separators, trim each piece, drop empty pieces. -/
def splitParagraphs (text : Str) : List Str :=
  (((splitBlank (replaceCRLF text)).map trim).filter (fun p => !p.isEmpty))

/-- A word token: `{ text, index, trailingSpace }` as built by
`Tokenizer.tokenizeWords`. -/
structure Token where
  text : Str
  index : Nat
  trailingSpace : Str
deriving DecidableEq, Repr

/-- Scanning loop of the regex `/(\S+)(\s*)/gu`: skip to the next non-space
run, capture it and the following whitespace run; an empty whitespace capture
defaults to a single space. -/
def tokenizeAux : Nat → Nat → Str → List Token
  | 0, _, _ => []
  | fuel + 1, idx, s =>
    let s1 := s.dropWhile isWsCp
    if s1.isEmpty then []
    else
      let w := s1.takeWhile (fun c => !isWsCp c)
      let rest := s1.dropWhile (fun c => !isWsCp c)
      let t := rest.takeWhile isWsCp
      let rest2 := rest.dropWhile isWsCp
      ⟨w, idx, if t.isEmpty then [0x20] else t⟩ :: tokenizeAux fuel (idx + 1) rest2

/-- `Tokenizer.tokenizeWords`. -/
def tokenizeWords (paragraph : Str) : List Token :=
  tokenizeAux paragraph.length 0 paragraph

/-- Whitespace collapsing `replace(/\s+/g, ' ')`, tracking whether the
previous character was part of a whitespace run. -/
def collapseAux : Bool → Str → Str
  | _, [] => []
  | prevWs, c :: rest =>
    if isWsCp c then
      if prevWs then collapseAux true rest else 0x20 :: collapseAux true rest
    else c :: collapseAux false rest

/-- The normalization in `Tokenizer.fingerprint`: lowercase, strip characters
outside letters/digits/whitespace, collapse whitespace runs, trim. -/
def normalize (text : Str) : Str :=
  trim (collapseAux false ((text.map lowerChar).filter keepCp))

/-- UTF-16 encoding of a code-point sequence (what `charCodeAt` iterates). -/
def utf16Encode (s : Str) : List Nat :=
  s.flatMap (fun c =>
    if c < 0x10000 then [c]
    else [0xD800 + (c - 0x10000) / 0x400, 0xDC00 + (c - 0x10000) % 0x400])

/-- JS `ToInt32`: wrap to a signed 32-bit value. -/
def toInt32 (z : Int) : Int := (z + 2 ^ 31) % 2 ^ 32 - 2 ^ 31

/-- One iteration of the djb2 loop `hash = ((hash << 5) + hash) + code`:
the shift coerces through `ToInt32`, the additions are exact. -/
def hashStep (h : Int) (u : Nat) : Int := toInt32 (toInt32 h * 32) + h + u

/-- `Tokenizer.fingerprint`: normalize, run the djb2 loop over the UTF-16
code units of the normalized string, fold to 32-bit unsigned (`>>> 0`). -/
def fingerprint (text : Str) : Nat :=
  (((utf16Encode (normalize text)).foldl hashStep 5381) % 2 ^ 32).toNat

/-- Modelled from the spec: the spec's own description of the fingerprint
applies the recurrence `h = ((h << 5) + h) + codepoint` to each *code point*
of the normalized text, folded to 32 bits unsigned.  This definition follows
the spec's words and is compared against `fingerprint` (which follows the
source's `charCodeAt` loop). -/
def specFingerprint (text : Str) : Nat :=
  (normalize text).foldl (fun h c => (33 * h + c) % 2 ^ 32) 5381

end Tokenizer

namespace DiffEngine

open Tokenizer

/-- The default used when reading a token list out of range (unreachable in
the executions the theorems below quantify over). -/
def dTok : Token := ⟨[], 0, []⟩

/-- The kind of a word-level diff operation. -/
inductive OpType where
  | equal
  | insert
  | delete
deriving DecidableEq, Repr

/-- A word-level diff operation `{ type, word }`. -/
structure Op where
  type : OpType
  word : Token
deriving DecidableEq, Repr

/-- The guard of the snake loop of `myersDiff`:
`x < N && y < M && oldTokens[x].text === newTokens[y].text`, with `y = x - k`
throughout the loop. -/
def slideCond (o n : List Token) (k : Int) (x : Nat) : Prop :=
  x < o.length ∧ (x : Int) - k < (n.length : Int) ∧
    (o.getD x dTok).text = (n.getD ((x : Int) - k).toNat dTok).text

instance (o n : List Token) (k : Int) (x : Nat) : Decidable (slideCond o n k x) := by
  unfold slideCond; infer_instance

/-- The snake loop of `myersDiff`:
`while (x < N && y < M && oldTokens[x].text === newTokens[y].text) {x++; y++}`
with `y = x - k` throughout.  The fuel is `N - x` at the first call, which is
sufficient because each iteration increases `x`. -/
def slideAux (o n : List Token) (k : Int) : Nat → Nat → Nat
  | 0, x => x
  | fuel + 1, x =>
    if slideCond o n k x then slideAux o n k fuel (x + 1)
    else x

/-- Diagonal slide from column `x` on diagonal `k`. -/
def slide (o n : List Token) (k : Int) (x : Nat) : Nat :=
  slideAux o n k (o.length - x) x

/-- The mid point chosen by the forward (and backtracking) comparison rule:
`k === -D || (k !== D && V.get(k-1) < V.get(k+1))` picks the value above
(`V(k+1)`, a vertical move), otherwise the value left plus one. -/
def midX (V : Int → Nat) (D : Nat) (k : Int) : Nat :=
  if k = -(D : Int) ∨ (k ≠ (D : Int) ∧ V (k - 1) < V (k + 1)) then V (k + 1)
  else V (k - 1) + 1

/-- The furthest-reach value stored at diagonal `k` in round `D`. -/
def stepX (o n : List Token) (V : Int → Nat) (D : Nat) (k : Int) : Nat :=
  slide o n k (midX V D k)

/-- Pointwise map update `V.set(k, x)`. -/
def updV (V : Int → Nat) (k : Int) (x : Nat) : Int → Nat :=
  fun j => if j = k then x else V j

/-- The diagonals `-D, -D+2, …, D` scanned in round `D`. -/
def ksList (D : Nat) : List Int :=
  (List.range (D + 1)).map (fun (i : Nat) => -(D : Int) + 2 * (i : Int))

/-- The inner `k`-loop of one round `D`, with the `break outer` when the
stored point satisfies `x >= N && y >= M`.  Returns the updated map and
whether the break fired. -/
def runKs (o n : List Token) (D : Nat) : List Int → (Int → Nat) → ((Int → Nat) × Bool)
  | [], V => (V, false)
  | k :: rest, V =>
    let x := stepX o n V D k
    let V' := updV V k x
    if o.length ≤ x ∧ (n.length : Int) ≤ (x : Int) - k then (V', true)
    else runKs o n D rest V'

/-- The forward phase `for (D = 0; D <= MAX; D++)`: push a snapshot of `V`,
run the `k`-loop, stop at the break.  Returns the trace (in push order) and
whether the break fired.  `fuel` is `MAX + 1` at the first call, matching the
loop bound. -/
def forwardAux (o n : List Token) : Nat → Nat → (Int → Nat) → List (Int → Nat) →
    (List (Int → Nat) × Bool)
  | 0, _, _, acc => (acc.reverse, false)
  | fuel + 1, D, V, acc =>
    if (runKs o n D (ksList D) V).2 then ((V :: acc).reverse, true)
    else forwardAux o n fuel (D + 1) (runKs o n D (ksList D) V).1 (V :: acc)

/-- The complete forward phase of `myersDiff`. -/
def myersForward (o n : List Token) : List (Int → Nat) × Bool :=
  forwardAux o n (o.length + n.length + 1) 0 (fun _ => 0) []

/-- The backward snake of `backtrack`:
`while (x > prevX && y > prevY) { x--; y--; unshift equal oldTokens[x] }`.
The fuel is `(x - prevX).toNat`, sufficient because `x` decreases. -/
def backSnake (o : List Token) (pX pY : Int) : Nat → Int → Int → List Op →
    (Int × Int × List Op)
  | 0, x, y, acc => (x, y, acc)
  | fuel + 1, x, y, acc =>
    if pX < x ∧ pY < y then
      backSnake o pX pY fuel (x - 1) (y - 1)
        (⟨OpType.equal, o.getD (x - 1).toNat dTok⟩ :: acc)
    else (x, y, acc)

/-- The body of the backtrack loop for one `d`, returning the next `(x, y)`
and the operation list with this step's operations prepended. -/
def backStep (trace : List (Int → Nat)) (o n : List Token) (d : Nat)
    (x y : Int) (acc : List Op) : Int × Int × List Op :=
  let V := trace.getD d (fun _ => 0)
  let k := x - y
  let prevK :=
    if k = -(d : Int) ∨ (k ≠ (d : Int) ∧ V (k - 1) < V (k + 1)) then k + 1
    else k - 1
  let pX : Int := V prevK
  let pY : Int := pX - prevK
  let s := backSnake o pX pY (x - pX).toNat x y acc
  if d = 0 then s
  else
    if s.1 = pX then
      (s.1, s.2.1 - 1, ⟨OpType.insert, n.getD (s.2.1 - 1).toNat dTok⟩ :: s.2.2)
    else
      (s.1 - 1, s.2.1, ⟨OpType.delete, o.getD (s.1 - 1).toNat dTok⟩ :: s.2.2)

/-- The backtrack loop `for (d = trace.length - 1; d >= 0; d--)`. -/
def backLoop (trace : List (Int → Nat)) (o n : List Token) :
    Nat → Int → Int → List Op → List Op
  | 0, x, y, acc => (backStep trace o n 0 x y acc).2.2
  | d + 1, x, y, acc =>
    let s := backStep trace o n (d + 1) x y acc
    backLoop trace o n d s.1 s.2.1 s.2.2

/-- `DiffEngine.backtrack`. -/
def backtrack (trace : List (Int → Nat)) (o n : List Token) : List Op :=
  backLoop trace o n (trace.length - 1) (o.length : Int) (n.length : Int) []

/-- `DiffEngine.myersDiff`. -/
def myersDiff (o n : List Token) : List Op :=
  if o.length + n.length = 0 then []
  else backtrack (myersForward o n).1 o n

/-- A recorded paragraph move `{ fromIndex, toIndex, fingerprint, text }`. -/
structure Move where
  fromIndex : Nat
  toIndex : Nat
  fp : Nat
  text : Str
deriving DecidableEq, Repr

/-- `DiffEngine.detectMovedParagraphs`: greedy first-match pairing of equal
fingerprints at different indices, with both sides marked consumed.  The
state is `(moves, matchedOriginal, matchedRevised)`. -/
def detectMovedParagraphs (originalParas revisedParas : List Str) : List Move :=
  let originalFP := originalParas.enum.map
    (fun p => (p.2, Tokenizer.fingerprint p.2, p.1))
  let revisedFP := revisedParas.enum.map
    (fun p => (p.2, Tokenizer.fingerprint p.2, p.1))
  (originalFP.foldl (fun st orig =>
    revisedFP.foldl (fun st rev =>
      if orig.2.1 = rev.2.1 ∧ orig.2.2 ≠ rev.2.2 ∧
          orig.2.2 ∉ st.2.1 ∧ rev.2.2 ∉ st.2.2 then
        (st.1 ++ [⟨orig.2.2, rev.2.2, orig.2.1, orig.1⟩],
         orig.2.2 :: st.2.1, rev.2.2 :: st.2.2)
      else st) st)
    (([], [], []) : List Move × List Nat × List Nat)).1

/-- JS `split(/\s+/)`: pieces between maximal whitespace runs, keeping the
empty leading/trailing pieces that JS `split` produces. -/
def splitWsAux : Nat → Str → Str → List Str
  | _, cur, [] => [cur.reverse]
  | 0, cur, s => [cur.reverse ++ s]
  | fuel + 1, cur, c :: rest =>
    if Tokenizer.isWsCp c then
      cur.reverse :: splitWsAux fuel [] (rest.dropWhile Tokenizer.isWsCp)
    else splitWsAux fuel (c :: cur) rest

/-- `para.toLowerCase().split(/\s+/)`. -/
def splitWs (s : Str) : List Str := splitWsAux s.length [] s

/-- `DiffEngine.paragraphSimilarity`: Jaccard similarity of the lowercase
word sets; the JS `Set` is modelled as a `Finset`, the float quotient as an
exact rational. -/
def paragraphSimilarity (para1 para2 : Str) : ℚ :=
  let words1 := (splitWs (para1.map Tokenizer.lowerChar)).toFinset
  let words2 := (splitWs (para2.map Tokenizer.lowerChar)).toFinset
  let inter := (words1 ∩ words2).card
  let union := words1.card + words2.card - inter
  if union > 0 then (inter : ℚ) / union else 0

/-- The classification of a paragraph alignment. -/
inductive AlignType where
  | unchanged
  | modified
  | added
  | deleted
  | moved
deriving DecidableEq, Repr

/-- One alignment record as pushed by `alignParagraphs`; fields the JS object
does not carry are `none`. -/
structure Alignment where
  type : AlignType
  original : Option Str
  revised : Option Str
  originalIndex : Option Nat
  revisedIndex : Option Nat
  movedFrom : Option Nat
  movedTo : Option Nat
deriving DecidableEq, Repr

/-- `new Map(moves.map(m => [m.toIndex, m])).get(to)`: later entries with the
same key overwrite earlier ones. -/
def moveMapGet (moves : List Move) (toIdx : Nat) : Option Move :=
  moves.foldl (fun acc m => if m.toIndex = toIdx then some m else acc) none

/-- The cursor loop of `alignParagraphs`.  Each iteration advances at least
one cursor, so fuel `originalParas.length + revisedParas.length` is
sufficient. -/
def alignLoop (originalParas revisedParas : List Str) (moves : List Move) :
    Nat → Nat → Nat → List Alignment
  | 0, _, _ => []
  | fuel + 1, origIdx, revIdx =>
    if origIdx < originalParas.length ∨ revIdx < revisedParas.length then
      if revIdx < revisedParas.length ∧ revIdx ∈ moves.map (·.toIndex) then
        match moveMapGet moves revIdx with
        | some m =>
          ⟨AlignType.moved, some m.text, some (revisedParas.getD revIdx []),
            some m.fromIndex, some revIdx, some m.fromIndex, some revIdx⟩ ::
            alignLoop originalParas revisedParas moves fuel origIdx (revIdx + 1)
        | none => []
      else if origIdx < originalParas.length ∧
          origIdx ∈ moves.map (·.fromIndex) then
        alignLoop originalParas revisedParas moves fuel (origIdx + 1) revIdx
      else if origIdx < originalParas.length ∧ revIdx < revisedParas.length then
        let po := originalParas.getD origIdx []
        let pr := revisedParas.getD revIdx []
        if Tokenizer.fingerprint po = Tokenizer.fingerprint pr then
          ⟨AlignType.unchanged, some po, some pr, some origIdx, some revIdx,
            none, none⟩ ::
            alignLoop originalParas revisedParas moves fuel (origIdx + 1) (revIdx + 1)
        else if paragraphSimilarity po pr > 3 / 10 then
          ⟨AlignType.modified, some po, some pr, some origIdx, some revIdx,
            none, none⟩ ::
            alignLoop originalParas revisedParas moves fuel (origIdx + 1) (revIdx + 1)
        else
          let nextOrigSim := if origIdx + 1 < originalParas.length then
            paragraphSimilarity (originalParas.getD (origIdx + 1) []) pr else 0
          let nextRevSim := if revIdx + 1 < revisedParas.length then
            paragraphSimilarity po (revisedParas.getD (revIdx + 1) []) else 0
          if nextRevSim < nextOrigSim ∧ 3 / 10 < nextOrigSim then
            ⟨AlignType.deleted, some po, none, some origIdx, none, none, none⟩ ::
              alignLoop originalParas revisedParas moves fuel (origIdx + 1) revIdx
          else if 3 / 10 < nextRevSim then
            ⟨AlignType.added, none, some pr, none, some revIdx, none, none⟩ ::
              alignLoop originalParas revisedParas moves fuel origIdx (revIdx + 1)
          else
            ⟨AlignType.modified, some po, some pr, some origIdx, some revIdx,
              none, none⟩ ::
              alignLoop originalParas revisedParas moves fuel (origIdx + 1) (revIdx + 1)
      else if origIdx < originalParas.length then
        (if origIdx ∈ moves.map (·.fromIndex) then [] else
          [⟨AlignType.deleted, some (originalParas.getD origIdx []), none,
            some origIdx, none, none, none⟩]) ++
          alignLoop originalParas revisedParas moves fuel (origIdx + 1) revIdx
      else
        (if revIdx ∈ moves.map (·.toIndex) then [] else
          [⟨AlignType.added, none, some (revisedParas.getD revIdx []), none,
            some revIdx, none, none⟩]) ++
          alignLoop originalParas revisedParas moves fuel origIdx (revIdx + 1)
    else []

/-- `DiffEngine.alignParagraphs`. -/
def alignParagraphs (originalParas revisedParas : List Str) (moves : List Move) :
    List Alignment :=
  alignLoop originalParas revisedParas moves
    (originalParas.length + revisedParas.length) 0 0

/-- One paragraph of the result:
`{ type, originalIndex, revisedIndex, operations, movedFrom, movedTo }`. -/
structure ParagraphDiff where
  type : AlignType
  originalIndex : Option Nat
  revisedIndex : Option Nat
  operations : List Op
  movedFrom : Option Nat
  movedTo : Option Nat
deriving DecidableEq, Repr

/-- The result statistics. -/
structure Stats where
  wordsOriginal : Nat
  wordsRevised : Nat
  wordsAdded : Nat
  wordsDeleted : Nat
  wordsUnchanged : Nat
  paragraphsMoved : Nat
deriving DecidableEq, Repr

/-- The complete diff result. -/
structure DiffResult where
  paragraphs : List ParagraphDiff
  stats : Stats
deriving DecidableEq, Repr

/-- The JS `v || null` applied to a move index: `0` is falsy, so a source
index of `0` collapses to `null`. -/
def jsOrNull : Option Nat → Option Nat
  | some v => if v = 0 then none else some v
  | none => none

/-- `DiffEngine.calculateStats`. -/
def calculateStats (paragraphs : List ParagraphDiff) : Stats :=
  let wordsAdded := (paragraphs.map (fun p =>
    (p.operations.filter (fun op => op.type == OpType.insert)).length)).sum
  let wordsDeleted := (paragraphs.map (fun p =>
    (p.operations.filter (fun op => op.type == OpType.delete)).length)).sum
  let wordsUnchanged := (paragraphs.map (fun p =>
    (p.operations.filter (fun op =>
      !(op.type == OpType.insert) && !(op.type == OpType.delete))).length)).sum
  let paragraphsMoved := (paragraphs.filter (fun p =>
    p.movedFrom.isSome || p.movedTo.isSome)).length
  { wordsOriginal := wordsDeleted + wordsUnchanged
    wordsRevised := wordsAdded + wordsUnchanged
    wordsAdded := wordsAdded
    wordsDeleted := wordsDeleted
    wordsUnchanged := wordsUnchanged
    paragraphsMoved := paragraphsMoved }

/-- The per-alignment operations of `compare`. -/
def alignmentOps (a : Alignment) : List Op :=
  match a.type with
  | AlignType.added =>
    (Tokenizer.tokenizeWords (a.revised.getD [])).map
      (fun w => ⟨OpType.insert, w⟩)
  | AlignType.deleted =>
    (Tokenizer.tokenizeWords (a.original.getD [])).map
      (fun w => ⟨OpType.delete, w⟩)
  | _ =>
    myersDiff (Tokenizer.tokenizeWords (a.original.getD []))
      (Tokenizer.tokenizeWords (a.revised.getD []))

/-- The `ParagraphDiff` built from one alignment in `compare`, with the
`alignment.movedFrom || null` / `alignment.movedTo || null` coercions. -/
def alignmentToParagraph (a : Alignment) : ParagraphDiff :=
  { type := a.type
    originalIndex := a.originalIndex
    revisedIndex := a.revisedIndex
    operations := alignmentOps a
    movedFrom := jsOrNull a.movedFrom
    movedTo := jsOrNull a.movedTo }

/-- `DiffEngine.compare`. -/
def compare (originalText revisedText : Str) : DiffResult :=
  let originalParas := Tokenizer.splitParagraphs originalText
  let revisedParas := Tokenizer.splitParagraphs revisedText
  let moves := detectMovedParagraphs originalParas revisedParas
  let alignments := alignParagraphs originalParas revisedParas moves
  let paragraphResults := alignments.map alignmentToParagraph
  { paragraphs := paragraphResults, stats := calculateStats paragraphResults }

end DiffEngine

namespace DiffEngine

open Tokenizer

/-- The `equal`+`delete` projection of an operation list: the old-side
tokens, in emitted order. -/
def eqDelWords (s : List Op) : List Token :=
  s.filterMap (fun op => if op.type = OpType.insert then none else some op.word)

/-- The `equal`+`insert` projection of an operation list: the new-side
tokens, in emitted order. -/
def eqInsWords (s : List Op) : List Token :=
  s.filterMap (fun op => if op.type = OpType.delete then none else some op.word)

/-- The number of `insert` plus `delete` operations of a script. -/
def countEdits (s : List Op) : Nat :=
  (s.filter (fun op => op.type == OpType.insert || op.type == OpType.delete)).length

/-- An edit script transforming `o` into `n`: its `equal`+`delete` tokens are
exactly `o`, and its `equal`+`insert` token texts are exactly the texts of
`n` (so every `equal` operation pairs tokens with equal text). -/
def ValidScript (o n : List Token) (s : List Op) : Prop :=
  eqDelWords s = o ∧ (eqInsWords s).map Token.text = n.map Token.text

/-- Reachability in the (extended) Myers edit graph: `EReach o n s x y` holds
when `(x, y)` is reachable from `(0, 0)` with exactly `s` horizontal/vertical
edit moves, and any number of diagonal moves across positions where the two
token texts agree.  Horizontal and vertical moves are not clipped to the
grid, mirroring the unguarded `V.get(k-1) + 1` of the source. -/
inductive EReach (o n : List Token) : Nat → Nat → Nat → Prop
  | zero : EReach o n 0 0 0
  | right {s x y} : EReach o n s x y → EReach o n (s + 1) (x + 1) y
  | down {s x y} : EReach o n s x y → EReach o n (s + 1) x (y + 1)
  | diag {s x y} : x < o.length → y < n.length →
      (o.getD x dTok).text = (n.getD y dTok).text →
      EReach o n s x y → EReach o n s (x + 1) (y + 1)

/-- One full round `D` of the forward loop without the break. -/
def roundFull (o n : List Token) (D : Nat) (V : Int → Nat) : Int → Nat :=
  (ksList D).foldl (fun Vc k => updV Vc k (stepX o n Vc D k)) V

/-- The frontier map after the first `D` complete break-free rounds
(`WState o n 0` is the initial map, `WState o n (D+1)` the state after
round `D`). -/
def WState (o n : List Token) : Nat → Int → Nat
  | 0 => fun _ => 0
  | D + 1 => roundFull o n D (WState o n D)

/-- Whether round `D` (run from the break-free state) contains a diagonal
whose stored point satisfies the break condition `x >= N && y >= M`. -/
def breakRoundB (o n : List Token) (D : Nat) : Bool :=
  (ksList D).any (fun k =>
    decide (o.length ≤ WState o n (D + 1) k ∧
      (n.length : Int) ≤ (WState o n (D + 1) k : Int) - k))

/-- Search for the first breaking round. -/
def firstBreakAux (o n : List Token) : Nat → Nat → Nat
  | 0, D => D
  | fuel + 1, D =>
    if breakRoundB o n D then D else firstBreakAux o n fuel (D + 1)

/-- The first round whose frontier satisfies the break condition. -/
def firstBreak (o n : List Token) : Nat :=
  firstBreakAux o n (o.length + n.length + 1) 0

/-- Old-side reconstruction of an operation list: concatenated
`text + trailingSpace` of the `equal` and `delete` operations. -/
def opsOldString (ops : List Op) : Str :=
  ((eqDelWords ops).map (fun w => w.text ++ w.trailingSpace)).foldr (· ++ ·) []

/-- New-side reconstruction: concatenated `text + trailingSpace` of the
`equal` and `insert` operations. -/
def opsNewString (ops : List Op) : Str :=
  ((eqInsWords ops).map (fun w => w.text ++ w.trailingSpace)).foldr (· ++ ·) []

end DiffEngine

namespace Tokenizer

/-- The djb2 fold `h := (33 * h + u) mod 2^32` over a list of UTF-16 code
units, as the spec words the recurrence (but over code units rather than
code points). -/
def djb2Units (us : List Nat) : Nat :=
  us.foldl (fun h u => (33 * h + u) % 2 ^ 32) 5381

end Tokenizer

namespace DiffEngine

open Tokenizer

/-- The backtracking invariant: at loop index `d`, the current point
`(xN, yN)` lies within the grid, on a diagonal of round `d`'s cone, between
the mid point and the furthest reach that round `d` computed from the
snapshot `trace[d]`. -/
def BackInv (o n : List Token) (d xN yN : Nat) : Prop :=
  xN ≤ o.length ∧ yN ≤ n.length ∧
    ((xN : Int) - (yN : Int)).natAbs ≤ d ∧
    (((xN : Int) - (yN : Int)) + d) % 2 = 0 ∧
    midX (WState o n d) d ((xN : Int) - (yN : Int)) ≤ xN ∧
    xN ≤ stepX o n (WState o n d) d ((xN : Int) - (yN : Int))

end DiffEngine

namespace DiffEngine

open Tokenizer

instance (o n : List Token) (s : List Op) : Decidable (ValidScript o n s) := by
  unfold ValidScript
  infer_instance

end DiffEngine

namespace DiffEngine

open Tokenizer

/-- The structural invariant of the alignment records produced by
`alignParagraphs`: recorded indices are in range and point at the
corresponding paragraph text, `added` records carry no original index and
`deleted` records no revised index. -/
def AlignShape (origP revP : List Str) (a : Alignment) : Prop :=
  (∀ oi, a.originalIndex = some oi → oi < origP.length ∧
    a.original = some (origP.getD oi [])) ∧
  (∀ ri, a.revisedIndex = some ri → ri < revP.length ∧
    a.revised = some (revP.getD ri [])) ∧
  (a.type = AlignType.added → a.originalIndex = none) ∧
  (a.type = AlignType.deleted → a.revisedIndex = none)

end DiffEngine

-- ===== THEOREMS =====

namespace DiffEngine

open Tokenizer

theorem slideAux_ge (o n : List Token) (k : Int) :
    ∀ fuel x, x ≤ slideAux o n k fuel x := by
  intro fuel
  induction fuel with
  | zero => intro x; simp [slideAux]
  | succ fuel ih =>
    intro x
    simp only [slideAux]
    split
    · exact le_trans (Nat.le_succ x) (ih (x + 1))
    · exact le_refl x

theorem slideAux_stop (o n : List Token) (k : Int) :
    ∀ fuel x, o.length ≤ x + fuel → ¬ slideCond o n k (slideAux o n k fuel x) := by
  intro fuel
  induction fuel with
  | zero =>
    intro x hx hc
    simp only [slideAux] at hc
    exact absurd hc.1 (by omega)
  | succ fuel ih =>
    intro x hx
    simp only [slideAux]
    split
    · exact ih (x + 1) (by omega)
    · assumption

theorem slideAux_matches (o n : List Token) (k : Int) :
    ∀ fuel x i, x ≤ i → i < slideAux o n k fuel x → slideCond o n k i := by
  intro fuel
  induction fuel with
  | zero =>
    intro x i hxi hi
    simp only [slideAux] at hi
    omega
  | succ fuel ih =>
    intro x i hxi hi
    simp only [slideAux] at hi
    split at hi
    · rcases Nat.eq_or_lt_of_le hxi with h | h
      · subst h; assumption
      · exact ih (x + 1) i h hi
    · omega

theorem slide_ge (o n : List Token) (k : Int) (x : Nat) : x ≤ slide o n k x :=
  slideAux_ge o n k _ x

theorem slide_stop (o n : List Token) (k : Int) (x : Nat) :
    ¬ slideCond o n k (slide o n k x) :=
  slideAux_stop o n k _ x (by omega)

theorem slide_matches (o n : List Token) (k : Int) (x i : Nat) (hxi : x ≤ i)
    (hi : i < slide o n k x) : slideCond o n k i :=
  slideAux_matches o n k _ x i hxi hi

theorem EReach.pad_right {o n : List Token} {s x y : Nat}
    (h : EReach o n s x y) : ∀ d, EReach o n (s + d) (x + d) y := by
  intro d
  induction d with
  | zero => exact h
  | succ d ih => exact EReach.right ih

theorem EReach.pad_down {o n : List Token} {s x y : Nat}
    (h : EReach o n s x y) : ∀ d, EReach o n (s + d) x (y + d) := by
  intro d
  induction d with
  | zero => exact h
  | succ d ih => exact EReach.down ih

theorem ereach_base (o n : List Token) :
    EReach o n (o.length + n.length) o.length n.length := by
  have h1 := (@EReach.zero o n).pad_right o.length
  have h2 := h1.pad_down n.length
  simpa using h2

theorem ereach_k_bound {o n : List Token} {s x y : Nat}
    (h : EReach o n s x y) :
    ((x : Int) - y).natAbs ≤ s ∧ ((x : Int) - y + s) % 2 = 0 := by
  induction h with
  | zero => simp
  | right _ ih => omega
  | down _ ih => omega
  | diag _ _ _ _ ih => omega

theorem ereach_split {o n : List Token} {s x y : Nat}
    (h : EReach o n s x y) :
    ∃ s₀ x₀ y₀, EReach o n s₀ x₀ y₀ ∧ x₀ ≤ o.length ∧ y₀ ≤ n.length ∧
      x₀ ≤ x ∧ y₀ ≤ y ∧ s₀ + (x - x₀) + (y - y₀) ≤ s := by
  induction h with
  | zero =>
    exact ⟨0, 0, 0, EReach.zero, Nat.zero_le _, Nat.zero_le _, le_refl _,
      le_refl _, by omega⟩
  | right _ ih =>
    obtain ⟨s₀, x₀, y₀, hr, h1, h2, h3, h4, h5⟩ := ih
    exact ⟨s₀, x₀, y₀, hr, h1, h2, by omega, h4, by omega⟩
  | down _ ih =>
    obtain ⟨s₀, x₀, y₀, hr, h1, h2, h3, h4, h5⟩ := ih
    exact ⟨s₀, x₀, y₀, hr, h1, h2, h3, by omega, by omega⟩
  | diag hx hy _ h ih =>
    rename_i s' x' y' _
    exact ⟨_, x' + 1, y' + 1, EReach.diag hx hy (by assumption) h,
      by omega, by omega, le_refl _, le_refl _, by omega⟩

theorem ereach_corner {o n : List Token} {s x y : Nat}
    (h : EReach o n s x y) (hx : o.length ≤ x) (hy : n.length ≤ y) :
    ∃ e ≤ s, EReach o n e o.length n.length := by
  obtain ⟨s₀, x₀, y₀, hr, h1, h2, h3, h4, h5⟩ := ereach_split h
  refine ⟨s₀ + (o.length - x₀) + (n.length - y₀), by omega, ?_⟩
  have hp := (hr.pad_right (o.length - x₀)).pad_down (n.length - y₀)
  have ex : x₀ + (o.length - x₀) = o.length := by omega
  have ey : y₀ + (n.length - y₀) = n.length := by omega
  rw [ex, ey] at hp
  exact hp

end DiffEngine

namespace DiffEngine

open Tokenizer

theorem slideAux_reach {o n : List Token} {s : Nat} (k : Int) :
    ∀ (fuel x y : Nat), (y : Int) = (x : Int) - k → EReach o n s x y →
      ∃ y' : Nat, ((y' : Int) = (slideAux o n k fuel x : Int) - k ∧
        EReach o n s (slideAux o n k fuel x) y') := by
  intro fuel
  induction fuel with
  | zero =>
    intro x y hy hr
    exact ⟨y, by simpa [slideAux] using hy, by simpa [slideAux] using hr⟩
  | succ fuel ih =>
    intro x y hy hr
    simp only [slideAux]
    split
    · rename_i hc
      obtain ⟨hxN, hyM, htxt⟩ := hc
      have hyy : ((x : Int) - k).toNat = y := by omega
      have hyM' : y < n.length := by omega
      rw [hyy] at htxt
      have hr' : EReach o n s (x + 1) (y + 1) := EReach.diag hxN hyM' htxt hr
      exact ih (x + 1) (y + 1) (by omega) hr'
    · exact ⟨y, hy, hr⟩

theorem slide_reach {o n : List Token} {s : Nat} (k : Int) (x y : Nat)
    (hy : (y : Int) = (x : Int) - k) (hr : EReach o n s x y) :
    ∃ y' : Nat, ((y' : Int) = (slide o n k x : Int) - k ∧
      EReach o n s (slide o n k x) y') :=
  slideAux_reach k _ x y hy hr

theorem mem_ksList {D : Nat} {k : Int} :
    k ∈ ksList D ↔ k.natAbs ≤ D ∧ (k + D) % 2 = 0 := by
  simp only [ksList, List.mem_map, List.mem_range]
  constructor
  · rintro ⟨i, hi, rfl⟩
    omega
  · rintro ⟨h1, h2⟩
    refine ⟨((k + D) / 2).toNat, by omega, by omega⟩

theorem ksList_nodup (D : Nat) : (ksList D).Nodup := by
  refine List.Nodup.map ?_ (List.nodup_range _)
  intro a b hab
  dsimp only at hab
  omega

theorem ksList_nonadj {D : Nat} {a b : Int} (ha : a ∈ ksList D)
    (hb : b ∈ ksList D) : b ≠ a + 1 ∧ b ≠ a - 1 := by
  rw [mem_ksList] at ha hb
  omega

theorem midX_congr {V₁ V₂ : Int → Nat} {D : Nat} {k : Int}
    (h1 : V₁ (k - 1) = V₂ (k - 1)) (h2 : V₁ (k + 1) = V₂ (k + 1)) :
    midX V₁ D k = midX V₂ D k := by
  simp only [midX, h1, h2]

theorem stepX_congr {o n : List Token} {V₁ V₂ : Int → Nat} {D : Nat} {k : Int}
    (h1 : V₁ (k - 1) = V₂ (k - 1)) (h2 : V₁ (k + 1) = V₂ (k + 1)) :
    stepX o n V₁ D k = stepX o n V₂ D k := by
  simp only [stepX, midX_congr h1 h2]

theorem foldRound_not_mem (o n : List Token) (D : Nat) :
    ∀ (l : List Int) (V : Int → Nat) (j : Int), j ∉ l →
      ((l.foldl (fun Vc k => updV Vc k (stepX o n Vc D k)) V) j = V j) := by
  intro l
  induction l with
  | nil => intro V j _; rfl
  | cons k rest ih =>
    intro V j hj
    simp only [List.foldl_cons]
    rw [ih _ j (by simp at hj; exact hj.2)]
    simp only [updV]
    rw [if_neg (by simp at hj; exact hj.1)]

theorem foldRound_mem (o n : List Token) (D : Nat) :
    ∀ (l : List Int), l.Nodup → (∀ a ∈ l, ∀ b ∈ l, b ≠ a + 1 ∧ b ≠ a - 1) →
      ∀ (V : Int → Nat), ∀ k ∈ l,
        ((l.foldl (fun Vc k => updV Vc k (stepX o n Vc D k)) V) k
          = stepX o n V D k) := by
  intro l
  induction l with
  | nil => intro _ _ V k hk; simp at hk
  | cons a rest ih =>
    intro hnd hadj V k hk
    simp only [List.foldl_cons]
    have hnd' : rest.Nodup := (List.nodup_cons.mp hnd).2
    have hadj' : ∀ x ∈ rest, ∀ b ∈ rest, b ≠ x + 1 ∧ b ≠ x - 1 := by
      intro x hx b hb
      exact hadj x (List.mem_cons_of_mem _ hx) b (List.mem_cons_of_mem _ hb)
    rcases List.mem_cons.mp hk with rfl | hk'
    · rw [foldRound_not_mem o n D rest _ k (List.nodup_cons.mp hnd).1]
      simp [updV]
    · rw [ih hnd' hadj' _ k hk']
      have hne1 : a ≠ k - 1 := by
        have := hadj k hk a (List.mem_cons_self _ _)
        exact this.2
      have hne2 : a ≠ k + 1 := by
        have := hadj k hk a (List.mem_cons_self _ _)
        exact this.1
      refine stepX_congr ?_ ?_
      · simp only [updV]; rw [if_neg (by omega)]
      · simp only [updV]; rw [if_neg (by omega)]

theorem wstate_mem (o n : List Token) (D : Nat) {k : Int} (hk : k ∈ ksList D) :
    WState o n (D + 1) k = stepX o n (WState o n D) D k := by
  have := foldRound_mem o n D (ksList D) (ksList_nodup D)
    (fun a ha b hb => ksList_nonadj ha hb) (WState o n D) k hk
  simpa [WState, roundFull] using this

theorem wstate_not_mem (o n : List Token) (D : Nat) {k : Int}
    (hk : k ∉ ksList D) : WState o n (D + 1) k = WState o n D k := by
  have := foldRound_not_mem o n D (ksList D) (WState o n D) k hk
  simpa [WState, roundFull] using this

end DiffEngine

namespace DiffEngine

open Tokenizer

theorem midX_ge_left {V : Int → Nat} {D : Nat} {k : Int}
    (h : k ≠ -(D : Int)) : V (k - 1) + 1 ≤ midX V D k := by
  unfold midX
  split
  · rename_i hc
    rcases hc with h1 | ⟨h2, h3⟩
    · exact absurd h1 h
    · omega
  · exact le_refl _

theorem midX_ge_right {V : Int → Nat} {D : Nat} {k : Int}
    (h : k ≠ (D : Int)) : V (k + 1) ≤ midX V D k := by
  unfold midX
  split
  · exact le_refl _
  · rename_i hc
    push_neg at hc
    have := hc.2 h
    omega

theorem reach_le_wstate {o n : List Token} :
    ∀ {s x y : Nat}, EReach o n s x y →
      x ≤ WState o n (s + 1) ((x : Int) - (y : Int)) := by
  intro s x y h
  induction h with
  | zero => exact Nat.zero_le _
  | @right s x y h ih =>
    have hb := ereach_k_bound h
    have hb2 := ereach_k_bound (EReach.right h)
    have hk' : ((x + 1 : Nat) : Int) - (y : Int) ∈ ksList (s + 1) :=
      mem_ksList.mpr (by push_cast at hb2 ⊢; omega)
    rw [wstate_mem o n (s + 1) hk']
    have h1 : ((x + 1 : Nat) : Int) - (y : Int) ≠ -((s + 1 : Nat) : Int) := by
      push_cast at hb ⊢; omega
    have h2 : (((x + 1 : Nat) : Int) - (y : Int)) - 1 = (x : Int) - y := by
      push_cast; ring
    have step1 : x + 1 ≤ midX (WState o n (s + 1)) (s + 1)
        (((x + 1 : Nat) : Int) - (y : Int)) := by
      have := @midX_ge_left (WState o n (s + 1)) (s + 1) _ h1
      rw [h2] at this
      omega
    calc x + 1 ≤ _ := step1
      _ ≤ _ := slide_ge o n _ _
  | @down s x y h ih =>
    have hb := ereach_k_bound h
    have hb2 := ereach_k_bound (EReach.down h)
    have hk' : (x : Int) - ((y + 1 : Nat) : Int) ∈ ksList (s + 1) :=
      mem_ksList.mpr (by push_cast at hb2 ⊢; omega)
    rw [wstate_mem o n (s + 1) hk']
    have h1 : (x : Int) - ((y + 1 : Nat) : Int) ≠ ((s + 1 : Nat) : Int) := by
      push_cast at hb ⊢; omega
    have h2 : ((x : Int) - ((y + 1 : Nat) : Int)) + 1 = (x : Int) - y := by
      push_cast; ring
    have step1 : x ≤ midX (WState o n (s + 1)) (s + 1)
        ((x : Int) - ((y + 1 : Nat) : Int)) := by
      have := @midX_ge_right (WState o n (s + 1)) (s + 1) _ h1
      rw [h2] at this
      omega
    calc x ≤ _ := step1
      _ ≤ _ := slide_ge o n _ _
  | @diag s x y hx hy ht h ih =>
    have hb := ereach_k_bound h
    have hk : (x : Int) - (y : Int) ∈ ksList s := mem_ksList.mpr (by omega)
    have hkk : ((x + 1 : Nat) : Int) - ((y + 1 : Nat) : Int)
        = (x : Int) - (y : Int) := by push_cast; ring
    rw [hkk, wstate_mem o n s hk]
    rw [wstate_mem o n s hk] at ih
    rcases Nat.lt_or_ge x (stepX o n (WState o n s) s ((x : Int) - (y : Int)))
      with hlt | hge
    · unfold stepX at hlt ⊢
      omega
    · exfalso
      have hx_eq : x = stepX o n (WState o n s) s ((x : Int) - (y : Int)) := by
        unfold stepX at ih hge ⊢; omega
      have hstop := slide_stop o n ((x : Int) - (y : Int))
        (midX (WState o n s) s ((x : Int) - (y : Int)))
      unfold stepX at hx_eq
      rw [← hx_eq] at hstop
      apply hstop
      refine ⟨hx, by omega, ?_⟩
      have hy' : ((x : Int) - ((x : Int) - (y : Int))).toNat = y := by omega
      rw [hy']
      exact ht

theorem wstate_reach (o n : List Token) :
    ∀ D, ∀ k ∈ ksList D, ∃ y : Nat,
      ((y : Int) = (WState o n (D + 1) k : Int) - k ∧
        EReach o n D (WState o n (D + 1) k) y) := by
  intro D
  induction D with
  | zero =>
    intro k hk
    have hk0 : k = 0 := by
      rw [mem_ksList] at hk
      omega
    subst hk0
    rw [wstate_mem o n 0 (by rw [mem_ksList]; omega)]
    have hmid : midX (WState o n 0) 0 (0 : Int) = 0 := by
      simp [midX, WState]
    unfold stepX
    rw [hmid]
    exact slide_reach (0 : Int) 0 0 (by omega) EReach.zero
  | succ D ih =>
    intro k hk
    rw [wstate_mem o n (D + 1) hk]
    rw [mem_ksList] at hk
    unfold stepX
    by_cases hcond : k = -((D + 1 : Nat) : Int) ∨
        (k ≠ ((D + 1 : Nat) : Int) ∧
          WState o n (D + 1) (k - 1) < WState o n (D + 1) (k + 1))
    · have hmid : midX (WState o n (D + 1)) (D + 1) k
          = WState o n (D + 1) (k + 1) := by
        unfold midX
        rw [if_pos hcond]
      have hk1 : k + 1 ∈ ksList D := by
        rw [mem_ksList]
        rcases hcond with h1 | ⟨h2, _⟩
        · push_cast at h1 ⊢; omega
        · push_cast at h2 ⊢; omega
      obtain ⟨y', hy', hr'⟩ := ih (k + 1) hk1
      have hr2 : EReach o n (D + 1) (WState o n (D + 1) (k + 1)) (y' + 1) :=
        EReach.down hr'
      rw [hmid]
      exact slide_reach k _ (y' + 1) (by omega) hr2
    · have hmid : midX (WState o n (D + 1)) (D + 1) k
          = WState o n (D + 1) (k - 1) + 1 := by
        unfold midX
        rw [if_neg hcond]
      push_neg at hcond
      have hk1 : k - 1 ∈ ksList D := by
        rw [mem_ksList]
        have h1 := hcond.1
        push_cast at h1 ⊢
        omega
      obtain ⟨y', hy', hr'⟩ := ih (k - 1) hk1
      have hr2 : EReach o n (D + 1) (WState o n (D + 1) (k - 1) + 1) y' :=
        EReach.right hr'
      rw [hmid]
      exact slide_reach k _ y' (by omega) hr2

end DiffEngine

namespace DiffEngine

open Tokenizer

theorem ereach_breakround {o n : List Token} {D : Nat}
    (h : EReach o n D o.length n.length) : breakRoundB o n D = true := by
  have hb := ereach_k_bound h
  have hk : (o.length : Int) - (n.length : Int) ∈ ksList D :=
    mem_ksList.mpr (by omega)
  have hW := reach_le_wstate h
  rw [breakRoundB, List.any_eq_true]
  refine ⟨(o.length : Int) - (n.length : Int), hk, ?_⟩
  rw [decide_eq_true_eq]
  constructor
  · exact hW
  · omega

theorem breakround_ereach {o n : List Token} {D : Nat}
    (h : breakRoundB o n D = true) :
    ∃ e ≤ D, EReach o n e o.length n.length := by
  rw [breakRoundB, List.any_eq_true] at h
  obtain ⟨k, hk, hp⟩ := h
  rw [decide_eq_true_eq] at hp
  obtain ⟨y, hy, hr⟩ := wstate_reach o n D k hk
  exact ereach_corner hr hp.1 (by omega)

theorem firstBreakAux_le {o n : List Token} :
    ∀ fuel D₀ d, breakRoundB o n d = true → D₀ ≤ d → d < D₀ + fuel →
      (breakRoundB o n (firstBreakAux o n fuel D₀) = true ∧
        firstBreakAux o n fuel D₀ ≤ d) := by
  intro fuel
  induction fuel with
  | zero => intro D₀ d _ _ h3; omega
  | succ fuel ih =>
    intro D₀ d h1 h2 h3
    rw [firstBreakAux]
    by_cases hb : breakRoundB o n D₀
    · rw [if_pos hb]; exact ⟨hb, h2⟩
    · rw [if_neg hb]
      have hne : D₀ ≠ d := by
        rintro rfl; exact hb h1
      exact ih (D₀ + 1) d h1 (by omega) (by omega)

theorem firstBreakAux_min {o n : List Token} :
    ∀ fuel D₀ d, D₀ ≤ d → d < firstBreakAux o n fuel D₀ →
      breakRoundB o n d = false := by
  intro fuel
  induction fuel with
  | zero => intro D₀ d h1 h2; rw [firstBreakAux] at h2; omega
  | succ fuel ih =>
    intro D₀ d h1 h2
    rw [firstBreakAux] at h2
    by_cases hb : breakRoundB o n D₀
    · rw [if_pos hb] at h2; omega
    · rw [if_neg hb] at h2
      rcases Nat.eq_or_lt_of_le h1 with rfl | hlt
      · exact Bool.eq_false_iff.mpr hb
      · exact ih (D₀ + 1) d hlt h2

theorem firstBreak_break (o n : List Token) :
    breakRoundB o n (firstBreak o n) = true ∧
      firstBreak o n ≤ o.length + n.length := by
  have hbase : breakRoundB o n (o.length + n.length) = true :=
    ereach_breakround (ereach_base o n)
  exact firstBreakAux_le (o.length + n.length + 1) 0 (o.length + n.length)
    hbase (Nat.zero_le _) (by omega)

theorem firstBreak_min {o n : List Token} {d : Nat}
    (h : d < firstBreak o n) : breakRoundB o n d = false :=
  firstBreakAux_min _ 0 d (Nat.zero_le _) h

theorem firstBreak_reach (o n : List Token) :
    EReach o n (firstBreak o n) o.length n.length := by
  obtain ⟨hb, _⟩ := firstBreak_break o n
  obtain ⟨e, he, hr⟩ := breakround_ereach hb
  rcases Nat.eq_or_lt_of_le he with rfl | hlt
  · exact hr
  · exact absurd (ereach_breakround hr) (by simp [firstBreak_min hlt])

theorem reach_firstBreak_le {o n : List Token} {s : Nat}
    (h : EReach o n s o.length n.length) : firstBreak o n ≤ s := by
  by_contra hc
  push_neg at hc
  exact absurd (ereach_breakround h) (by simp [firstBreak_min hc])

end DiffEngine

namespace DiffEngine

open Tokenizer

theorem runKs_no_break (o n : List Token) (D : Nat) :
    ∀ (l : List Int) (V : Int → Nat), l.Nodup →
      (∀ a ∈ l, ∀ b ∈ l, b ≠ a + 1 ∧ b ≠ a - 1) →
      (∀ k ∈ l, ¬(o.length ≤ stepX o n V D k ∧
        (n.length : Int) ≤ (stepX o n V D k : Int) - k)) →
      runKs o n D l V
        = (l.foldl (fun Vc k => updV Vc k (stepX o n Vc D k)) V, false) := by
  intro l
  induction l with
  | nil => intro V _ _ _; rfl
  | cons a rest ih =>
    intro V hnd hadj hnb
    simp only [runKs]
    rw [if_neg (hnb a (List.mem_cons_self _ _))]
    simp only [List.foldl_cons]
    refine ih _ (List.nodup_cons.mp hnd).2
      (fun x hx b hb => hadj x (List.mem_cons_of_mem _ hx) b
        (List.mem_cons_of_mem _ hb)) ?_
    intro k hk
    have hs : stepX o n (updV V a (stepX o n V D a)) D k = stepX o n V D k := by
      have h1 := (hadj k (List.mem_cons_of_mem _ hk) a (List.mem_cons_self _ _)).1
      have h2 := (hadj k (List.mem_cons_of_mem _ hk) a (List.mem_cons_self _ _)).2
      refine stepX_congr ?_ ?_ <;> · simp only [updV]; rw [if_neg (by omega)]
    rw [hs]
    exact hnb k (List.mem_cons_of_mem _ hk)

theorem runKs_break (o n : List Token) (D : Nat) :
    ∀ (l : List Int) (V : Int → Nat), l.Nodup →
      (∀ a ∈ l, ∀ b ∈ l, b ≠ a + 1 ∧ b ≠ a - 1) →
      (∃ k ∈ l, o.length ≤ stepX o n V D k ∧
        (n.length : Int) ≤ (stepX o n V D k : Int) - k) →
      (runKs o n D l V).2 = true := by
  intro l
  induction l with
  | nil => intro V _ _ h; simp at h
  | cons a rest ih =>
    intro V hnd hadj h
    simp only [runKs]
    by_cases hba : o.length ≤ stepX o n V D a ∧
        (n.length : Int) ≤ (stepX o n V D a : Int) - a
    · rw [if_pos hba]
    · rw [if_neg hba]
      obtain ⟨k, hk, hbk⟩ := h
      rcases List.mem_cons.mp hk with rfl | hk'
      · exact absurd hbk hba
      · refine ih _ (List.nodup_cons.mp hnd).2
          (fun x hx b hb => hadj x (List.mem_cons_of_mem _ hx) b
            (List.mem_cons_of_mem _ hb)) ⟨k, hk', ?_⟩
        have hs : stepX o n (updV V a (stepX o n V D a)) D k
            = stepX o n V D k := by
          have h1 := (hadj k hk a (List.mem_cons_self _ _)).1
          have h2 := (hadj k hk a (List.mem_cons_self _ _)).2
          refine stepX_congr ?_ ?_ <;> · simp only [updV]; rw [if_neg (by omega)]
        rw [hs]
        exact hbk

theorem runKs_wstate_false (o n : List Token) (D : Nat)
    (h : breakRoundB o n D = false) :
    runKs o n D (ksList D) (WState o n D) = (WState o n (D + 1), false) := by
  have hnb : ∀ k ∈ ksList D, ¬(o.length ≤ stepX o n (WState o n D) D k ∧
      (n.length : Int) ≤ (stepX o n (WState o n D) D k : Int) - k) := by
    intro k hk hc
    rw [← wstate_mem o n D hk] at hc
    rw [breakRoundB] at h
    have hfalse := List.any_eq_false.mp h k hk
    simp only [decide_eq_true_eq] at hfalse
    exact hfalse hc
  rw [runKs_no_break o n D (ksList D) (WState o n D) (ksList_nodup D)
    (fun a ha b hb => ksList_nonadj ha hb) hnb]
  rfl

theorem runKs_wstate_true (o n : List Token) (D : Nat)
    (h : breakRoundB o n D = true) :
    (runKs o n D (ksList D) (WState o n D)).2 = true := by
  rw [breakRoundB, List.any_eq_true] at h
  obtain ⟨k, hk, hp⟩ := h
  rw [decide_eq_true_eq] at hp
  refine runKs_break o n D (ksList D) (WState o n D) (ksList_nodup D)
    (fun a ha b hb => ksList_nonadj ha hb) ⟨k, hk, ?_⟩
  rw [← wstate_mem o n D hk]
  exact hp

theorem forwardAux_trace (o n : List Token) :
    ∀ fuel D acc, (∀ d, d < D → breakRoundB o n d = false) →
      D ≤ firstBreak o n → firstBreak o n < D + fuel →
      forwardAux o n fuel D (WState o n D) acc
        = (acc.reverse
            ++ (List.range' D (firstBreak o n + 1 - D)).map (WState o n),
           true) := by
  intro fuel
  induction fuel with
  | zero => intro D acc _ h2 h3; omega
  | succ fuel ih =>
    intro D acc h1 h2 h3
    simp only [forwardAux]
    by_cases hD : D = firstBreak o n
    · have hb := (firstBreak_break o n).1
      rw [← hD] at hb ⊢
      rw [runKs_wstate_true o n D hb]
      simp only [if_true]
      have hr : D + 1 - D = 1 := by omega
      rw [hr]
      simp [List.range']
    · have hlt : D < firstBreak o n := by omega
      have hb := firstBreak_min hlt
      rw [runKs_wstate_false o n D hb]
      simp only [Bool.false_eq_true, if_false]
      rw [ih (D + 1) (WState o n D :: acc)
        (by intro d hd; rcases Nat.lt_succ_iff_lt_or_eq.mp hd with h | rfl
            · exact h1 d h
            · exact hb)
        (by omega) (by omega)]
      have hsplit : List.range' D (firstBreak o n + 1 - D)
          = D :: List.range' (D + 1) (firstBreak o n + 1 - (D + 1)) := by
        have : firstBreak o n + 1 - D = (firstBreak o n + 1 - (D + 1)) + 1 := by
          omega
        rw [this, List.range'_succ]
      rw [hsplit]
      simp

theorem myersForward_trace (o n : List Token) :
    myersForward o n
      = ((List.range (firstBreak o n + 1)).map (WState o n), true) := by
  have h := forwardAux_trace o n (o.length + n.length + 1) 0 []
    (by intro d hd; omega) (Nat.zero_le _)
    (by have := (firstBreak_break o n).2; omega)
  rw [myersForward]
  have h0 : (fun _ => 0 : Int → Nat) = WState o n 0 := rfl
  rw [h0, h]
  rw [List.range_eq_range']
  simp

theorem trace_getD (o n : List Token) (d : Nat) (hd : d ≤ firstBreak o n) :
    (myersForward o n).1.getD d (fun _ => 0) = WState o n d := by
  rw [myersForward_trace]
  simp only [List.getD_eq_getElem?_getD, List.getElem?_map]
  rw [List.getElem?_range (by omega)]
  rfl

theorem trace_length (o n : List Token) :
    (myersForward o n).1.length = firstBreak o n + 1 := by
  rw [myersForward_trace]
  simp

end DiffEngine

namespace DiffEngine

open Tokenizer

theorem eqDelWords_append (a b : List Op) :
    eqDelWords (a ++ b) = eqDelWords a ++ eqDelWords b := by
  simp [eqDelWords, List.filterMap_append]

theorem eqInsWords_append (a b : List Op) :
    eqInsWords (a ++ b) = eqInsWords a ++ eqInsWords b := by
  simp [eqInsWords, List.filterMap_append]

theorem countEdits_append (a b : List Op) :
    countEdits (a ++ b) = countEdits a + countEdits b := by
  simp [countEdits, List.filter_append]

theorem eqDelWords_equal_cons (w : Token) (acc : List Op) :
    eqDelWords (⟨OpType.equal, w⟩ :: acc) = w :: eqDelWords acc := by
  simp [eqDelWords, List.filterMap_cons]

theorem eqInsWords_equal_cons (w : Token) (acc : List Op) :
    eqInsWords (⟨OpType.equal, w⟩ :: acc) = w :: eqInsWords acc := by
  simp [eqInsWords, List.filterMap_cons]

theorem countEdits_equal_cons (w : Token) (acc : List Op) :
    countEdits (⟨OpType.equal, w⟩ :: acc) = countEdits acc := by
  simp [countEdits, List.filter_cons]

theorem eqDelWords_insert_cons (w : Token) (acc : List Op) :
    eqDelWords (⟨OpType.insert, w⟩ :: acc) = eqDelWords acc := by
  simp [eqDelWords, List.filterMap_cons]

theorem eqInsWords_insert_cons (w : Token) (acc : List Op) :
    eqInsWords (⟨OpType.insert, w⟩ :: acc) = w :: eqInsWords acc := by
  simp [eqInsWords, List.filterMap_cons]

theorem countEdits_insert_cons (w : Token) (acc : List Op) :
    countEdits (⟨OpType.insert, w⟩ :: acc) = countEdits acc + 1 := by
  simp [countEdits, List.filter_cons]

theorem eqDelWords_delete_cons (w : Token) (acc : List Op) :
    eqDelWords (⟨OpType.delete, w⟩ :: acc) = w :: eqDelWords acc := by
  simp [eqDelWords, List.filterMap_cons]

theorem eqInsWords_delete_cons (w : Token) (acc : List Op) :
    eqInsWords (⟨OpType.delete, w⟩ :: acc) = eqInsWords acc := by
  simp [eqInsWords, List.filterMap_cons]

theorem countEdits_delete_cons (w : Token) (acc : List Op) :
    countEdits (⟨OpType.delete, w⟩ :: acc) = countEdits acc + 1 := by
  simp [countEdits, List.filter_cons]

theorem range'_map_getD (l : List Token) :
    ∀ (cnt a : Nat), a + cnt ≤ l.length →
      (List.range' a cnt).map (fun i => l.getD i dTok)
        = (l.drop a).take cnt := by
  intro cnt
  induction cnt with
  | zero => intro a _; simp
  | succ cnt ih =>
    intro a ha
    rw [List.range'_succ]
    have hlt : a < l.length := by omega
    rw [List.drop_eq_getElem_cons hlt]
    simp only [List.map_cons, List.take_succ_cons]
    rw [ih (a + 1) (by omega)]
    congr 1
    simp [List.getD_eq_getElem?_getD, List.getElem?_eq_getElem hlt]

theorem backSnake_run (o : List Token) (k pX pY : Int) :
    ∀ (fuel cnt x0 : Nat) (acc : List Op), cnt ≤ fuel →
      (∀ xi : Int, (x0 : Int) < xi → xi ≤ ((x0 + cnt : Nat) : Int) →
        (pX < xi ∧ pY < xi - k)) →
      ¬(pX < (x0 : Int) ∧ pY < (x0 : Int) - k) →
      backSnake o pX pY fuel ((x0 + cnt : Nat) : Int)
          (((x0 + cnt : Nat) : Int) - k) acc
        = ((x0 : Int), (x0 : Int) - k,
            ((List.range' x0 cnt).map
              (fun i => (⟨OpType.equal, o.getD i dTok⟩ : Op))) ++ acc) := by
  intro fuel
  induction fuel with
  | zero =>
    intro cnt x0 acc hcnt _ hstop
    have hc0 : cnt = 0 := by omega
    subst hc0
    simp [backSnake]
  | succ fuel ih =>
    intro cnt x0 acc hcnt hgo hstop
    match cnt with
    | 0 =>
      simp only [Nat.add_zero]
      simp only [backSnake]
      rw [if_neg hstop]
      simp
    | cnt + 1 =>
      simp only [backSnake]
      rw [if_pos (hgo ((x0 + (cnt + 1) : Nat) : Int) (by push_cast; omega)
        (le_refl _))]
      have hx1 : ((x0 + (cnt + 1) : Nat) : Int) - 1 = ((x0 + cnt : Nat) : Int) := by
        push_cast; ring
      have hy1 : ((x0 + (cnt + 1) : Nat) : Int) - k - 1
          = ((x0 + cnt : Nat) : Int) - k := by push_cast; ring
      rw [hx1, hy1]
      have htok : ((x0 + cnt : Nat) : Int).toNat = x0 + cnt := by omega
      rw [htok]
      rw [ih cnt x0 _ (by omega)
        (fun xi h1 h2 => hgo xi h1 (by push_cast at h2 ⊢; omega)) hstop]
      rw [List.range'_concat]
      simp

end DiffEngine

namespace DiffEngine

open Tokenizer

theorem eqDelWords_equal_map {α : Type} (l : List α) (f : α → Token) :
    eqDelWords (l.map (fun a => ⟨OpType.equal, f a⟩)) = l.map f := by
  induction l with
  | nil => rfl
  | cons a rest ih => simp only [List.map_cons, eqDelWords_equal_cons, ih]

theorem eqInsWords_equal_map {α : Type} (l : List α) (f : α → Token) :
    eqInsWords (l.map (fun a => ⟨OpType.equal, f a⟩)) = l.map f := by
  induction l with
  | nil => rfl
  | cons a rest ih => simp only [List.map_cons, eqInsWords_equal_cons, ih]

theorem countEdits_equal_map {α : Type} (l : List α) (f : α → Token) :
    countEdits (l.map (fun a => ⟨OpType.equal, f a⟩)) = 0 := by
  induction l with
  | nil => rfl
  | cons a rest ih => simp only [List.map_cons, countEdits_equal_cons, ih]

theorem seg_texts (o n : List Token) (k : Int) :
    ∀ (cnt x0 y0 : Nat), ((y0 : Int) = (x0 : Int) - k) →
      (∀ i, x0 ≤ i → i < x0 + cnt → slideCond o n k i) →
      (List.range' x0 cnt).map (fun i => (o.getD i dTok).text)
        = (List.range' y0 cnt).map (fun j => (n.getD j dTok).text) := by
  intro cnt
  induction cnt with
  | zero => intro x0 y0 _ _; simp
  | succ cnt ih =>
    intro x0 y0 hy hm
    rw [List.range'_succ, List.range'_succ]
    simp only [List.map_cons]
    have hc := hm x0 (le_refl _) (by omega)
    obtain ⟨_, _, ht⟩ := hc
    have hyy : ((x0 : Int) - k).toNat = y0 := by omega
    rw [hyy] at ht
    rw [ht]
    congr 1
    exact ih (x0 + 1) (y0 + 1) (by omega)
      (fun i h1 h2 => hm i (by omega) (by omega))

theorem wstate_ge (o n : List Token) (D : Nat) {k : Int}
    (hk : k ∈ ksList D) : k ≤ (WState o n (D + 1) k : Int) := by
  obtain ⟨y, hy, _⟩ := wstate_reach o n D k hk
  omega

theorem drop_take_drop (l : List Token) (a b : Nat) (hab : a ≤ b) :
    (l.drop a).take (b - a) ++ l.drop b = l.drop a := by
  have h1 : l.drop b = (l.drop a).drop (b - a) := by
    rw [List.drop_drop]
    congr 1
    omega
  rw [h1]
  exact List.take_append_drop _ _

end DiffEngine

namespace DiffEngine

open Tokenizer

theorem backStep_succ_spec (o n : List Token) (d : Nat)
    (hd : d + 1 ≤ firstBreak o n) (xN yN : Nat) (acc : List Op)
    (hinv : BackInv o n (d + 1) xN yN)
    (hdel : eqDelWords acc = o.drop xN)
    (hins : (eqInsWords acc).map Token.text = (n.drop yN).map Token.text) :
    ∃ (xN' yN' : Nat) (acc' : List Op),
      backStep (myersForward o n).1 o n (d + 1) (xN : Int) (yN : Int) acc
          = ((xN' : Int), ((yN' : Int), acc')) ∧
        BackInv o n d xN' yN' ∧
        eqDelWords acc' = o.drop xN' ∧
        (eqInsWords acc').map Token.text = (n.drop yN').map Token.text ∧
        countEdits acc' = countEdits acc + 1 := by
  obtain ⟨hxN, hyN, hkb, hkp, hmid, hstep⟩ := hinv
  have htr : (myersForward o n).1.getD (d + 1) (fun _ => 0)
      = WState o n (d + 1) := trace_getD o n (d + 1) hd
  by_cases hcond : ((xN : Int) - (yN : Int)) = -(((d + 1 : Nat)) : Int) ∨
      (((xN : Int) - (yN : Int)) ≠ (((d + 1 : Nat)) : Int) ∧
        WState o n (d + 1) (((xN : Int) - (yN : Int)) - 1)
          < WState o n (d + 1) (((xN : Int) - (yN : Int)) + 1))
  · -- vertical step: the path came from diagonal k+1, ending in an insert
    have hmidx : midX (WState o n (d + 1)) (d + 1) ((xN : Int) - (yN : Int))
        = WState o n (d + 1) (((xN : Int) - (yN : Int)) + 1) := by
      unfold midX
      rw [if_pos hcond]
    have hk1 : ((xN : Int) - (yN : Int)) + 1 ∈ ksList d := by
      rw [mem_ksList]
      rcases hcond with h1 | ⟨h2, _⟩
      · constructor <;> omega
      · by_cases h3 : ((xN : Int) - (yN : Int)) = -(((d + 1 : Nat)) : Int)
        · constructor <;> omega
        · constructor <;> omega
    have hpXmem : WState o n (d + 1) (((xN : Int) - (yN : Int)) + 1)
        = stepX o n (WState o n d) d (((xN : Int) - (yN : Int)) + 1) :=
      wstate_mem o n d hk1
    have hpXle : WState o n (d + 1) (((xN : Int) - (yN : Int)) + 1) ≤ xN := by
      rw [hmidx] at hmid
      exact hmid
    have hpY0 : ((xN : Int) - (yN : Int)) + 1
        ≤ (WState o n (d + 1) (((xN : Int) - (yN : Int)) + 1) : Int) :=
      wstate_ge o n d hk1
    set pX : Nat := WState o n (d + 1) (((xN : Int) - (yN : Int)) + 1) with hpX
    obtain ⟨y0, hy0⟩ : ∃ y0 : Nat,
        (y0 : Int) = (pX : Int) - ((xN : Int) - (yN : Int)) - 1 :=
      ⟨((pX : Int) - ((xN : Int) - (yN : Int)) - 1).toNat, by omega⟩
    have hcnt : pX + (xN - pX) = xN := by omega
    have hmatch : ∀ i, pX ≤ i → i < pX + (xN - pX) →
        slideCond o n ((xN : Int) - (yN : Int)) i := by
      intro i h1 h2
      refine slide_matches o n ((xN : Int) - (yN : Int))
        (midX (WState o n (d + 1)) (d + 1) ((xN : Int) - (yN : Int))) i
        (by rw [hmidx]; exact h1) (lt_of_lt_of_le (by omega) hstep)
    have hsnake := backSnake_run o ((xN : Int) - (yN : Int)) (pX : Int)
      ((pX : Int) - (((xN : Int) - (yN : Int)) + 1))
      (((xN : Int) - (pX : Int)).toNat) (xN - pX) pX acc
      (by omega)
      (by intro xi h1 h2; push_cast at h2; constructor <;> omega)
      (by omega)
    rw [hcnt] at hsnake
    have hyNeq : ((xN : Int)) - ((xN : Int) - (yN : Int)) = (yN : Int) := by ring
    rw [hyNeq] at hsnake
    have hy0lt : y0 < n.length := by omega
    refine ⟨pX, y0,
      ⟨OpType.insert, n.getD y0 dTok⟩ ::
        ((List.range' pX (xN - pX)).map
          (fun i => (⟨OpType.equal, o.getD i dTok⟩ : Op)) ++ acc),
      ?_, ?_, ?_, ?_, ?_⟩
    · simp only [backStep]
      rw [htr]
      rw [if_pos hcond]
      rw [hsnake]
      simp only [Nat.succ_ne_zero, if_false, if_true]
      have hyy : (pX : Int) - ((xN : Int) - (yN : Int)) - 1 = (y0 : Int) := by
        omega
      have hyy2 : ((pX : Int) - ((xN : Int) - (yN : Int)) - 1).toNat = y0 := by
        omega
      rw [hyy]
      rw [show ((y0 : Int)).toNat = y0 by omega]
    · rw [mem_ksList] at hk1
      refine ⟨by omega, by omega, ?_, ?_, ?_, ?_⟩
      · have hdg : (pX : Int) - (y0 : Int) = ((xN : Int) - (yN : Int)) + 1 := by
          omega
        rw [hdg]; exact hk1.1
      · have hdg : (pX : Int) - (y0 : Int) = ((xN : Int) - (yN : Int)) + 1 := by
          omega
        rw [hdg]; omega
      · have hdg : (pX : Int) - (y0 : Int) = ((xN : Int) - (yN : Int)) + 1 := by
          omega
        rw [hdg, hpXmem]
        unfold stepX
        exact slide_ge o n _ _
      · have hdg : (pX : Int) - (y0 : Int) = ((xN : Int) - (yN : Int)) + 1 := by
          omega
        rw [hdg, hpXmem]
    · rw [eqDelWords_insert_cons, eqDelWords_append, eqDelWords_equal_map, hdel]
      rw [range'_map_getD o (xN - pX) pX (by omega)]
      exact drop_take_drop o pX xN hpXle
    · rw [eqInsWords_insert_cons, eqInsWords_append, eqInsWords_equal_map]
      simp only [List.map_cons, List.map_append, List.map_map]
      have hseg : (List.range' pX (xN - pX)).map
            (fun i => (o.getD i dTok).text)
          = (List.range' (y0 + 1) (xN - pX)).map
            (fun j => (n.getD j dTok).text) :=
        seg_texts o n ((xN : Int) - (yN : Int)) (xN - pX) pX (y0 + 1)
          (by omega) hmatch
      have hcomp : (Token.text ∘ fun i => o.getD i dTok)
          = (fun i => (o.getD i dTok).text) := rfl
      rw [hcomp, hseg]
      have hyn : y0 + 1 + (xN - pX) = yN := by omega
      have hnseg : (List.range' (y0 + 1) (xN - pX)).map
            (fun j => (n.getD j dTok).text)
          = ((n.drop (y0 + 1)).take (xN - pX)).map Token.text := by
        rw [← range'_map_getD n (xN - pX) (y0 + 1) (by omega)]
        simp [List.map_map]
      rw [hnseg, hins]
      rw [← List.map_append]
      have hdrop : (n.drop (y0 + 1)).take (xN - pX) ++ n.drop yN
          = n.drop (y0 + 1) := by
        have := drop_take_drop n (y0 + 1) yN (by omega)
        rwa [show yN - (y0 + 1) = xN - pX by omega] at this
      rw [hdrop]
      rw [List.drop_eq_getElem_cons hy0lt]
      simp only [List.map_cons]
      congr 2
      simp [List.getD_eq_getElem?_getD, List.getElem?_eq_getElem hy0lt]
    · rw [countEdits_insert_cons, countEdits_append, countEdits_equal_map]
      omega
  · -- horizontal step: the path came from diagonal k-1, ending in a delete
    have hmidx : midX (WState o n (d + 1)) (d + 1) ((xN : Int) - (yN : Int))
        = WState o n (d + 1) (((xN : Int) - (yN : Int)) - 1) + 1 := by
      unfold midX
      rw [if_neg hcond]
    have hcond2 := hcond
    push_neg at hcond2
    have hk1 : ((xN : Int) - (yN : Int)) - 1 ∈ ksList d := by
      rw [mem_ksList]
      have h1 := hcond2.1
      by_cases h3 : ((xN : Int) - (yN : Int)) = (((d + 1 : Nat)) : Int)
      · constructor <;> omega
      · constructor <;> omega
    have hpXmem : WState o n (d + 1) (((xN : Int) - (yN : Int)) - 1)
        = stepX o n (WState o n d) d (((xN : Int) - (yN : Int)) - 1) :=
      wstate_mem o n d hk1
    have hpXle : WState o n (d + 1) (((xN : Int) - (yN : Int)) - 1) + 1 ≤ xN := by
      rw [hmidx] at hmid
      exact hmid
    have hpY0 : ((xN : Int) - (yN : Int)) - 1
        ≤ (WState o n (d + 1) (((xN : Int) - (yN : Int)) - 1) : Int) :=
      wstate_ge o n d hk1
    set pX : Nat := WState o n (d + 1) (((xN : Int) - (yN : Int)) - 1) with hpX
    obtain ⟨y0, hy0⟩ : ∃ y0 : Nat,
        (y0 : Int) = ((pX : Int) + 1) - ((xN : Int) - (yN : Int)) :=
      ⟨(((pX : Int) + 1) - ((xN : Int) - (yN : Int))).toNat, by omega⟩
    have hcnt : (pX + 1) + (xN - (pX + 1)) = xN := by omega
    have hmatch : ∀ i, pX + 1 ≤ i → i < (pX + 1) + (xN - (pX + 1)) →
        slideCond o n ((xN : Int) - (yN : Int)) i := by
      intro i h1 h2
      refine slide_matches o n ((xN : Int) - (yN : Int))
        (midX (WState o n (d + 1)) (d + 1) ((xN : Int) - (yN : Int))) i
        (by rw [hmidx]; exact h1) (lt_of_lt_of_le (by omega) hstep)
    have hsnake := backSnake_run o ((xN : Int) - (yN : Int)) (pX : Int)
      ((pX : Int) - (((xN : Int) - (yN : Int)) - 1))
      (((xN : Int) - (pX : Int)).toNat) (xN - (pX + 1)) (pX + 1) acc
      (by omega)
      (by intro xi h1 h2; push_cast at h1 h2; constructor <;> omega)
      (by push_cast; omega)
    rw [hcnt] at hsnake
    have hyNeq : ((xN : Int)) - ((xN : Int) - (yN : Int)) = (yN : Int) := by ring
    rw [hyNeq] at hsnake
    have hpXlt : pX < o.length := by omega
    refine ⟨pX, y0,
      ⟨OpType.delete, o.getD pX dTok⟩ ::
        ((List.range' (pX + 1) (xN - (pX + 1))).map
          (fun i => (⟨OpType.equal, o.getD i dTok⟩ : Op)) ++ acc),
      ?_, ?_, ?_, ?_, ?_⟩
    · simp only [backStep]
      rw [htr]
      rw [if_neg hcond]
      rw [hsnake]
      simp only [Nat.succ_ne_zero, if_false]
      rw [if_neg (by push_cast; omega)]
      have hx1 : ((pX + 1 : Nat) : Int) - 1 = (pX : Int) := by push_cast; ring
      have hy1 : ((pX + 1 : Nat) : Int) - ((xN : Int) - (yN : Int))
          = (y0 : Int) := by push_cast; omega
      rw [hx1, hy1]
      rw [show ((pX : Int)).toNat = pX by omega]
    · rw [mem_ksList] at hk1
      refine ⟨by omega, by omega, ?_, ?_, ?_, ?_⟩
      · have hdg : (pX : Int) - (y0 : Int) = ((xN : Int) - (yN : Int)) - 1 := by
          omega
        rw [hdg]; exact hk1.1
      · have hdg : (pX : Int) - (y0 : Int) = ((xN : Int) - (yN : Int)) - 1 := by
          omega
        rw [hdg]; omega
      · have hdg : (pX : Int) - (y0 : Int) = ((xN : Int) - (yN : Int)) - 1 := by
          omega
        rw [hdg, hpXmem]
        unfold stepX
        exact slide_ge o n _ _
      · have hdg : (pX : Int) - (y0 : Int) = ((xN : Int) - (yN : Int)) - 1 := by
          omega
        rw [hdg, hpXmem]
    · rw [eqDelWords_delete_cons, eqDelWords_append, eqDelWords_equal_map, hdel]
      rw [range'_map_getD o (xN - (pX + 1)) (pX + 1) (by omega)]
      rw [drop_take_drop o (pX + 1) xN (by omega)]
      rw [List.drop_eq_getElem_cons hpXlt]
      congr 1
      simp [List.getD_eq_getElem?_getD, List.getElem?_eq_getElem hpXlt]
    · rw [eqInsWords_delete_cons, eqInsWords_append, eqInsWords_equal_map]
      simp only [List.map_append, List.map_map]
      have hseg : (List.range' (pX + 1) (xN - (pX + 1))).map
            (fun i => (o.getD i dTok).text)
          = (List.range' y0 (xN - (pX + 1))).map
            (fun j => (n.getD j dTok).text) :=
        seg_texts o n ((xN : Int) - (yN : Int)) (xN - (pX + 1)) (pX + 1) y0
          (by omega) hmatch
      have hcomp : (Token.text ∘ fun i => o.getD i dTok)
          = (fun i => (o.getD i dTok).text) := rfl
      rw [hcomp, hseg]
      have hnseg : (List.range' y0 (xN - (pX + 1))).map
            (fun j => (n.getD j dTok).text)
          = ((n.drop y0).take (xN - (pX + 1))).map Token.text := by
        rw [← range'_map_getD n (xN - (pX + 1)) y0 (by omega)]
        simp [List.map_map]
      rw [hnseg, hins]
      rw [← List.map_append]
      have hdrop : (n.drop y0).take (xN - (pX + 1)) ++ n.drop yN
          = n.drop y0 := by
        have := drop_take_drop n y0 yN (by omega)
        rwa [show yN - y0 = xN - (pX + 1) by omega] at this
      rw [hdrop]
    · rw [countEdits_delete_cons, countEdits_append, countEdits_equal_map]
      omega

end DiffEngine

namespace DiffEngine

open Tokenizer

theorem backStep_zero_spec (o n : List Token) (xN yN : Nat) (acc : List Op)
    (hinv : BackInv o n 0 xN yN)
    (hdel : eqDelWords acc = o.drop xN)
    (hins : (eqInsWords acc).map Token.text = (n.drop yN).map Token.text) :
    eqDelWords (backStep (myersForward o n).1 o n 0 (xN : Int) (yN : Int) acc).2.2
        = o ∧
      ((eqInsWords
        (backStep (myersForward o n).1 o n 0 (xN : Int) (yN : Int) acc).2.2).map
          Token.text = n.map Token.text) ∧
      countEdits
        (backStep (myersForward o n).1 o n 0 (xN : Int) (yN : Int) acc).2.2
        = countEdits acc := by
  obtain ⟨hxN, hyN, hkb, hkp, hmid, hstep⟩ := hinv
  have hxy : xN = yN := by omega
  have htr : (myersForward o n).1.getD 0 (fun _ => 0) = WState o n 0 :=
    trace_getD o n 0 (Nat.zero_le _)
  have hcond : ((xN : Int) - (yN : Int)) = -(((0 : Nat)) : Int) ∨
      (((xN : Int) - (yN : Int)) ≠ (((0 : Nat)) : Int) ∧
        WState o n 0 (((xN : Int) - (yN : Int)) - 1)
          < WState o n 0 (((xN : Int) - (yN : Int)) + 1)) := by
    left; omega
  have hmidx : midX (WState o n 0) 0 ((xN : Int) - (yN : Int)) = 0 := by
    unfold midX
    rw [if_pos hcond]
    rfl
  have hmatch : ∀ i, 0 ≤ i → i < 0 + (xN - 0) →
      slideCond o n ((xN : Int) - (yN : Int)) i := by
    intro i h1 h2
    refine slide_matches o n ((xN : Int) - (yN : Int))
      (midX (WState o n 0) 0 ((xN : Int) - (yN : Int))) i
      (by rw [hmidx]; omega) (lt_of_lt_of_le (by omega) hstep)
  have hsnake := backSnake_run o ((xN : Int) - (yN : Int)) ((0 : Nat) : Int)
    (((0 : Nat) : Int) - (((xN : Int) - (yN : Int)) + 1))
    (((xN : Int) - (((0 : Nat) : Int))).toNat) (xN - 0) 0 acc
    (by omega)
    (by intro xi h1 h2; push_cast at h1 h2 ⊢; constructor <;> omega)
    (by intro hcontra; exact absurd hcontra.1 (by omega))
  rw [show (0 : Nat) + (xN - 0) = xN by omega] at hsnake
  rw [show ((xN : Int)) - ((xN : Int) - (yN : Int)) = (yN : Int) by ring]
    at hsnake
  have hbs : backStep (myersForward o n).1 o n 0 (xN : Int) (yN : Int) acc
      = (((0 : Nat) : Int), (((0 : Nat) : Int) - ((xN : Int) - (yN : Int)),
          (List.range' 0 (xN - 0)).map
            (fun i => (⟨OpType.equal, o.getD i dTok⟩ : Op)) ++ acc)) := by
    simp only [backStep]
    rw [htr]
    rw [if_pos hcond]
    have hpx0 : WState o n 0 (((xN : Int) - (yN : Int)) + 1) = 0 := rfl
    rw [hpx0]
    rw [hsnake]
    simp
  rw [hbs]
  simp only []
  refine ⟨?_, ?_, ?_⟩
  · rw [eqDelWords_append, eqDelWords_equal_map, hdel]
    rw [range'_map_getD o (xN - 0) 0 (by omega)]
    rw [drop_take_drop o 0 xN (by omega)]
    simp
  · rw [eqInsWords_append, eqInsWords_equal_map]
    simp only [List.map_append, List.map_map]
    have hseg : (List.range' 0 (xN - 0)).map
          (fun i => (o.getD i dTok).text)
        = (List.range' 0 (xN - 0)).map
          (fun j => (n.getD j dTok).text) :=
      seg_texts o n ((xN : Int) - (yN : Int)) (xN - 0) 0 0 (by omega) hmatch
    have hcomp : (Token.text ∘ fun i => o.getD i dTok)
        = (fun i => (o.getD i dTok).text) := rfl
    rw [hcomp, hseg]
    have hnseg : (List.range' 0 (xN - 0)).map
          (fun j => (n.getD j dTok).text)
        = ((n.drop 0).take (xN - 0)).map Token.text := by
      rw [← range'_map_getD n (xN - 0) 0 (by omega)]
      simp [List.map_map]
    rw [hnseg, hins]
    rw [← List.map_append]
    have hdrop : (n.drop 0).take (xN - 0) ++ n.drop yN = n.drop 0 := by
      have := drop_take_drop n 0 yN (by omega)
      rwa [show yN - 0 = xN - 0 by omega] at this
    rw [hdrop]
    simp
  · rw [countEdits_append, countEdits_equal_map]
    omega

theorem backLoop_spec (o n : List Token) :
    ∀ d, d ≤ firstBreak o n → ∀ (xN yN : Nat) (acc : List Op),
      BackInv o n d xN yN →
      eqDelWords acc = o.drop xN →
      (eqInsWords acc).map Token.text = (n.drop yN).map Token.text →
      (eqDelWords (backLoop (myersForward o n).1 o n d (xN : Int) (yN : Int) acc)
          = o ∧
        (eqInsWords
          (backLoop (myersForward o n).1 o n d (xN : Int) (yN : Int) acc)).map
            Token.text = n.map Token.text ∧
        countEdits
          (backLoop (myersForward o n).1 o n d (xN : Int) (yN : Int) acc)
          = countEdits acc + d) := by
  intro d
  induction d with
  | zero =>
    intro _ xN yN acc hinv hdel hins
    have h := backStep_zero_spec o n xN yN acc hinv hdel hins
    exact ⟨h.1, h.2.1, h.2.2⟩
  | succ d ih =>
    intro hd xN yN acc hinv hdel hins
    obtain ⟨xN', yN', acc', heq, hinv', hdel', hins', hcnt⟩ :=
      backStep_succ_spec o n d hd xN yN acc hinv hdel hins
    simp only [backLoop]
    rw [heq]
    dsimp only
    have h := ih (by omega) xN' yN' acc' hinv' hdel' hins'
    exact ⟨h.1, h.2.1, by rw [h.2.2, hcnt]; ring⟩

end DiffEngine

namespace DiffEngine

open Tokenizer

theorem backInv_start (o n : List Token) :
    BackInv o n (firstBreak o n) o.length n.length := by
  have hreach := firstBreak_reach o n
  have hb := ereach_k_bound hreach
  have hkmem : ((o.length : Int) - (n.length : Int)) ∈ ksList (firstBreak o n) :=
    mem_ksList.mpr (by omega)
  have hW : o.length ≤ WState o n (firstBreak o n + 1)
      ((o.length : Int) - (n.length : Int)) := reach_le_wstate hreach
  have hwm := wstate_mem o n (firstBreak o n) hkmem
  refine ⟨le_refl _, le_refl _, by omega, by omega, ?_, ?_⟩
  · by_contra hc
    push_neg at hc
    unfold midX at hc
    split at hc
    · rename_i hcond
      rcases Nat.eq_zero_or_pos (firstBreak o n) with h0 | hpos
      · rw [h0] at hc
        have : WState o n 0 (((o.length : Int) - (n.length : Int)) + 1) = 0 := rfl
        omega
      · obtain ⟨D', hD'⟩ : ∃ D', firstBreak o n = D' + 1 :=
          ⟨firstBreak o n - 1, by omega⟩
        rw [hD'] at hc hcond hb
        have hk1 : ((o.length : Int) - (n.length : Int)) + 1 ∈ ksList D' := by
          rw [mem_ksList]
          rcases hcond with h1 | ⟨h2, _⟩
          · constructor <;> omega
          · by_cases h3 : ((o.length : Int) - (n.length : Int))
                = -(((D' + 1 : Nat)) : Int)
            · constructor <;> omega
            · constructor <;> omega
        obtain ⟨y, hy, hr⟩ := wstate_reach o n D'
          (((o.length : Int) - (n.length : Int)) + 1) hk1
        obtain ⟨e, he, hcorner⟩ := ereach_corner hr (by omega) (by omega)
        have := reach_firstBreak_le hcorner
        omega
    · rename_i hcond
      rcases Nat.eq_zero_or_pos (firstBreak o n) with h0 | hpos
      · exfalso
        apply hcond
        left
        rw [h0]
        omega
      · obtain ⟨D', hD'⟩ : ∃ D', firstBreak o n = D' + 1 :=
          ⟨firstBreak o n - 1, by omega⟩
        push_neg at hcond
        rw [hD'] at hc hcond hb
        have hk1 : ((o.length : Int) - (n.length : Int)) - 1 ∈ ksList D' := by
          rw [mem_ksList]
          have h1 := hcond.1
          by_cases h3 : ((o.length : Int) - (n.length : Int))
              = (((D' + 1 : Nat)) : Int)
          · constructor <;> omega
          · constructor <;> omega
        obtain ⟨y, hy, hr⟩ := wstate_reach o n D'
          (((o.length : Int) - (n.length : Int)) - 1) hk1
        obtain ⟨e, he, hcorner⟩ := ereach_corner hr (by omega) (by omega)
        have := reach_firstBreak_le hcorner
        omega
  · rw [← hwm]
    exact hW

theorem firstBreak_nil (o n : List Token) (ho : o.length = 0)
    (hn : n.length = 0) : firstBreak o n = 0 := by
  have hr : EReach o n 0 o.length n.length := by
    rw [ho, hn]
    exact EReach.zero
  have := reach_firstBreak_le hr
  omega

theorem myersDiff_reconstruct (o n : List Token) :
    eqDelWords (myersDiff o n) = o ∧
      (eqInsWords (myersDiff o n)).map Token.text = n.map Token.text ∧
      countEdits (myersDiff o n) = firstBreak o n := by
  by_cases h0 : o.length + n.length = 0
  · have ho : o = [] := List.eq_nil_of_length_eq_zero (by omega)
    have hn : n = [] := List.eq_nil_of_length_eq_zero (by omega)
    rw [myersDiff, if_pos h0]
    rw [firstBreak_nil o n (by omega) (by omega)]
    subst ho
    subst hn
    exact ⟨rfl, rfl, rfl⟩
  · rw [myersDiff, if_neg h0]
    rw [backtrack]
    rw [trace_length]
    rw [show firstBreak o n + 1 - 1 = firstBreak o n by omega]
    have h := backLoop_spec o n (firstBreak o n) (le_refl _) o.length n.length
      [] (backInv_start o n)
      (by simp [eqDelWords])
      (by simp [eqInsWords])
    refine ⟨h.1, h.2.1, ?_⟩
    rw [h.2.2]
    simp [countEdits]

theorem script_reach (o n : List Token) :
    ∀ (s : List Op) (x y e : Nat), x ≤ o.length → y ≤ n.length →
      eqDelWords s = o.drop x →
      (eqInsWords s).map Token.text = (n.drop y).map Token.text →
      EReach o n e x y →
      EReach o n (e + countEdits s) o.length n.length := by
  intro s
  induction s with
  | nil =>
    intro x y e hxle hyle hdel hins hr
    have hx : x = o.length := by
      have h1 : (o.drop x).length = 0 := by rw [← hdel]; rfl
      rw [List.length_drop] at h1
      omega
    have hy : y = n.length := by
      have h1 : ((n.drop y).map Token.text).length = 0 := by rw [← hins]; rfl
      rw [List.length_map, List.length_drop] at h1
      omega
    subst hx
    subst hy
    simpa [countEdits] using hr
  | cons op rest ih =>
    intro x y e hxle hyle hdel hins hr
    obtain ⟨t, w⟩ := op
    cases t with
    | equal =>
      rw [eqDelWords_equal_cons] at hdel
      rw [eqInsWords_equal_cons] at hins
      have hxlt : x < o.length := by
        by_contra hcon
        rw [List.drop_eq_nil_of_le (by omega)] at hdel
        exact absurd hdel (by simp)
      have hylt : y < n.length := by
        by_contra hcon
        rw [List.drop_eq_nil_of_le (by omega)] at hins
        exact absurd hins (by simp)
      rw [List.drop_eq_getElem_cons hxlt] at hdel
      rw [List.drop_eq_getElem_cons hylt] at hins
      simp only [List.map_cons, List.cons.injEq] at hdel hins
      have hstep : EReach o n e (x + 1) (y + 1) := by
        refine EReach.diag hxlt hylt ?_ hr
        have hgo : o.getD x dTok = o[x] := by
          simp [List.getD_eq_getElem?_getD, List.getElem?_eq_getElem hxlt]
        have hgn : n.getD y dTok = n[y] := by
          simp [List.getD_eq_getElem?_getD, List.getElem?_eq_getElem hylt]
        rw [hgo, hgn, ← hdel.1, ← hins.1]
      rw [countEdits_equal_cons]
      exact ih (x + 1) (y + 1) e (by omega) (by omega) hdel.2 hins.2 hstep
    | insert =>
      rw [eqDelWords_insert_cons] at hdel
      rw [eqInsWords_insert_cons] at hins
      have hylt : y < n.length := by
        by_contra hcon
        rw [List.drop_eq_nil_of_le (by omega)] at hins
        exact absurd hins (by simp)
      rw [List.drop_eq_getElem_cons hylt] at hins
      simp only [List.map_cons, List.cons.injEq] at hins
      rw [countEdits_insert_cons]
      rw [show e + (countEdits rest + 1) = (e + 1) + countEdits rest by ring]
      exact ih x (y + 1) (e + 1) hxle (by omega) hdel hins.2 (EReach.down hr)
    | delete =>
      rw [eqDelWords_delete_cons] at hdel
      rw [eqInsWords_delete_cons] at hins
      have hxlt : x < o.length := by
        by_contra hcon
        rw [List.drop_eq_nil_of_le (by omega)] at hdel
        exact absurd hdel (by simp)
      rw [List.drop_eq_getElem_cons hxlt] at hdel
      simp only [List.cons.injEq] at hdel
      rw [countEdits_delete_cons]
      rw [show e + (countEdits rest + 1) = (e + 1) + countEdits rest by ring]
      exact ih (x + 1) y (e + 1) (by omega) hyle hdel.2 hins (EReach.right hr)

theorem valid_script_count (o n : List Token) (s : List Op)
    (hs : ValidScript o n s) : firstBreak o n ≤ countEdits s := by
  obtain ⟨hdel, hins⟩ := hs
  have := script_reach o n s 0 0 0 (Nat.zero_le _) (Nat.zero_le _)
    (by simpa using hdel) (by simpa using hins) EReach.zero
  exact reach_firstBreak_le (by simpa using this)

theorem myersDiff_valid (o n : List Token) :
    ValidScript o n (myersDiff o n) :=
  ⟨(myersDiff_reconstruct o n).1, (myersDiff_reconstruct o n).2.1⟩

theorem myersDiff_min (o n : List Token) (s : List Op)
    (hs : ValidScript o n s) :
    countEdits (myersDiff o n) ≤ countEdits s := by
  rw [(myersDiff_reconstruct o n).2.2]
  exact valid_script_count o n s hs

end DiffEngine

namespace DiffEngine

open Tokenizer

/-- C1: the claim as frozen states that the `equal`+`insert` tokens of the
word-level diff, in emitted order, equal the new token sequence.  The `equal`
operations store the *old* token objects, whose `index` (and separator) can
differ from the new sequence's tokens even when the texts match, so the claim
fails at token level on the new side: diffing `[a, b]` against `[b]` emits an
`equal` operation carrying old token `b` with index 1, while the new sequence
has `b` at index 0. -/
theorem claim_C1_counterexample :
    ¬ (eqDelWords (myersDiff
          [⟨[97], 0, [32]⟩, ⟨[98], 1, [32]⟩] [⟨[98], 0, [32]⟩])
        = [⟨[97], 0, [32]⟩, ⟨[98], 1, [32]⟩] ∧
      eqInsWords (myersDiff
          [⟨[97], 0, [32]⟩, ⟨[98], 1, [32]⟩] [⟨[98], 0, [32]⟩])
        = [⟨[98], 0, [32]⟩]) := by
  decide

/-- C1 (amended): for every pair of token sequences, the `equal` and `delete`
operations of `myersDiff`, in emitted order, carry exactly the old token
sequence (as full token objects), and the `equal` and `insert` operations, in
emitted order, carry exactly the texts of the new token sequence. -/
theorem claim_C1_amended (o n : List Token) :
    eqDelWords (myersDiff o n) = o ∧
      (eqInsWords (myersDiff o n)).map Token.text = n.map Token.text :=
  ⟨(myersDiff_reconstruct o n).1, (myersDiff_reconstruct o n).2.1⟩

/-- C2: `myersDiff` emits a valid edit script, and the number of its
`insert` plus `delete` operations is minimal over all edit scripts that
transform the old token sequence into the new one under exact token-text
equality. -/
theorem claim_C2 (o n : List Token) :
    ValidScript o n (myersDiff o n) ∧
      ∀ s : List Op, ValidScript o n s →
        countEdits (myersDiff o n) ≤ countEdits s :=
  ⟨myersDiff_valid o n, fun s hs => myersDiff_min o n s hs⟩

/-- Witness for C2 at a concrete input: the two-token script
`[delete a, insert b]` is a valid transformation of `[a]` into `[b]`, and the
diff's edit count is bounded by its edit count. -/
theorem claim_C2_witness :
    ValidScript [(⟨[97], 0, [32]⟩ : Token)] [(⟨[98], 0, [32]⟩ : Token)]
        [⟨OpType.delete, ⟨[97], 0, [32]⟩⟩, ⟨OpType.insert, ⟨[98], 0, [32]⟩⟩] ∧
      countEdits (myersDiff [(⟨[97], 0, [32]⟩ : Token)]
          [(⟨[98], 0, [32]⟩ : Token)])
        ≤ countEdits
          [⟨OpType.delete, ⟨[97], 0, [32]⟩⟩,
            ⟨OpType.insert, ⟨[98], 0, [32]⟩⟩] :=
  ⟨by decide,
    (claim_C2 [(⟨[97], 0, [32]⟩ : Token)] [(⟨[98], 0, [32]⟩ : Token)]).2
      [⟨OpType.delete, ⟨[97], 0, [32]⟩⟩, ⟨OpType.insert, ⟨[98], 0, [32]⟩⟩]
      (by decide)⟩

end DiffEngine

namespace DiffEngine

open Tokenizer

theorem mem_enum_facts {α : Type} (l : List α) (d : α) :
    ∀ p ∈ l.enum, p.1 < l.length ∧ l.getD p.1 d = p.2 := by
  intro p hp
  have h1 := List.fst_lt_of_mem_enum hp
  have h2 : l[p.1]? = some p.2 := by
    rw [← List.mem_enum_iff_getElem?]
    exact hp
  refine ⟨h1, ?_⟩
  rw [List.getD_eq_getElem?_getD, h2]
  rfl

theorem detectMoved_inner (origP revP : List Str)
    (orig : Str × Nat × Nat)
    (horig : orig.2.2 < origP.length ∧ origP.getD orig.2.2 [] = orig.1) :
    ∀ (revList : List (Str × Nat × Nat))
      (st : List Move × List Nat × List Nat),
      (∀ r ∈ revList, r.2.2 < revP.length) →
      ((st.1.map Move.fromIndex).Nodup ∧ (st.1.map Move.toIndex).Nodup ∧
        (∀ m ∈ st.1, m.fromIndex < origP.length ∧ m.toIndex < revP.length ∧
          origP.getD m.fromIndex [] = m.text) ∧
        (∀ m ∈ st.1, m.fromIndex ∈ st.2.1 ∧ m.toIndex ∈ st.2.2)) →
      (let st' := revList.foldl (fun st rev =>
        if orig.2.1 = rev.2.1 ∧ orig.2.2 ≠ rev.2.2 ∧
            orig.2.2 ∉ st.2.1 ∧ rev.2.2 ∉ st.2.2 then
          (st.1 ++ [⟨orig.2.2, rev.2.2, orig.2.1, orig.1⟩],
           orig.2.2 :: st.2.1, rev.2.2 :: st.2.2)
        else st) st
       (st'.1.map Move.fromIndex).Nodup ∧ (st'.1.map Move.toIndex).Nodup ∧
        (∀ m ∈ st'.1, m.fromIndex < origP.length ∧ m.toIndex < revP.length ∧
          origP.getD m.fromIndex [] = m.text) ∧
        (∀ m ∈ st'.1, m.fromIndex ∈ st'.2.1 ∧ m.toIndex ∈ st'.2.2)) := by
  intro revList
  induction revList with
  | nil => intro st _ hst; exact hst
  | cons rev rest ih =>
    intro st hrev hst
    simp only [List.foldl_cons]
    by_cases hc : orig.2.1 = rev.2.1 ∧ orig.2.2 ≠ rev.2.2 ∧
        orig.2.2 ∉ st.2.1 ∧ rev.2.2 ∉ st.2.2
    · rw [if_pos hc]
      refine ih _ (fun r hr => hrev r (List.mem_cons_of_mem _ hr)) ?_
      obtain ⟨hnf, hnt, hmf, hmm⟩ := hst
      refine ⟨?_, ?_, ?_, ?_⟩
      · simp only [List.map_append, List.map_cons, List.map_nil]
        rw [List.nodup_append]
        refine ⟨hnf, List.nodup_singleton _, ?_⟩
        intro a ha hb
        simp only [List.mem_singleton] at hb
        obtain ⟨mm, hmm', hfm⟩ := List.mem_map.mp ha
        apply hc.2.2.1
        rw [← hb, ← hfm]
        exact (hmm mm hmm').1
      · simp only [List.map_append, List.map_cons, List.map_nil]
        rw [List.nodup_append]
        refine ⟨hnt, List.nodup_singleton _, ?_⟩
        intro a ha hb
        simp only [List.mem_singleton] at hb
        obtain ⟨mm, hmm', hfm⟩ := List.mem_map.mp ha
        apply hc.2.2.2
        rw [← hb, ← hfm]
        exact (hmm mm hmm').2
      · intro m hm
        rcases List.mem_append.mp hm with hm' | hm'
        · exact hmf m hm'
        · simp only [List.mem_singleton] at hm'
          subst hm'
          exact ⟨horig.1, hrev rev (List.mem_cons_self _ _), horig.2⟩
      · intro m hm
        rcases List.mem_append.mp hm with hm' | hm'
        · have := hmm m hm'
          exact ⟨List.mem_cons_of_mem _ this.1, List.mem_cons_of_mem _ this.2⟩
        · simp only [List.mem_singleton] at hm'
          subst hm'
          exact ⟨List.mem_cons_self _ _, List.mem_cons_self _ _⟩
    · rw [if_neg hc]
      exact ih _ (fun r hr => hrev r (List.mem_cons_of_mem _ hr)) hst

theorem detectMoved_facts (origP revP : List Str) :
    ((detectMovedParagraphs origP revP).map Move.fromIndex).Nodup ∧
      ((detectMovedParagraphs origP revP).map Move.toIndex).Nodup ∧
      ∀ m ∈ detectMovedParagraphs origP revP,
        m.fromIndex < origP.length ∧ m.toIndex < revP.length ∧
          origP.getD m.fromIndex [] = m.text := by
  rw [detectMovedParagraphs]
  have main : ∀ (origList : List (Str × Nat × Nat))
      (st : List Move × List Nat × List Nat),
      (∀ p ∈ origList, p.2.2 < origP.length ∧ origP.getD p.2.2 [] = p.1) →
      ((st.1.map Move.fromIndex).Nodup ∧ (st.1.map Move.toIndex).Nodup ∧
        (∀ m ∈ st.1, m.fromIndex < origP.length ∧ m.toIndex < revP.length ∧
          origP.getD m.fromIndex [] = m.text) ∧
        (∀ m ∈ st.1, m.fromIndex ∈ st.2.1 ∧ m.toIndex ∈ st.2.2)) →
      (let st' := origList.foldl (fun st orig =>
          (revP.enum.map (fun p => (p.2, Tokenizer.fingerprint p.2, p.1))).foldl
            (fun st rev =>
              if orig.2.1 = rev.2.1 ∧ orig.2.2 ≠ rev.2.2 ∧
                  orig.2.2 ∉ st.2.1 ∧ rev.2.2 ∉ st.2.2 then
                (st.1 ++ [⟨orig.2.2, rev.2.2, orig.2.1, orig.1⟩],
                 orig.2.2 :: st.2.1, rev.2.2 :: st.2.2)
              else st) st) st
       (st'.1.map Move.fromIndex).Nodup ∧ (st'.1.map Move.toIndex).Nodup ∧
        (∀ m ∈ st'.1, m.fromIndex < origP.length ∧ m.toIndex < revP.length ∧
          origP.getD m.fromIndex [] = m.text) ∧
        (∀ m ∈ st'.1, m.fromIndex ∈ st'.2.1 ∧ m.toIndex ∈ st'.2.2)) := by
    intro origList
    induction origList with
    | nil => intro st _ hst; exact hst
    | cons orig rest ih =>
      intro st horigs hst
      simp only [List.foldl_cons]
      refine ih _ (fun p hp => horigs p (List.mem_cons_of_mem _ hp)) ?_
      refine detectMoved_inner origP revP orig
        ⟨(horigs orig (List.mem_cons_self _ _)).1,
          (horigs orig (List.mem_cons_self _ _)).2⟩ _ st ?_ hst
      intro r hr
      obtain ⟨p, hp, rfl⟩ := List.mem_map.mp hr
      exact (mem_enum_facts revP [] p hp).1
  have h := main (origP.enum.map (fun p => (p.2, Tokenizer.fingerprint p.2, p.1)))
    (([], [], []) : List Move × List Nat × List Nat)
    (by
      intro p hp
      obtain ⟨q, hq, rfl⟩ := List.mem_map.mp hp
      exact ⟨(mem_enum_facts origP [] q hq).1, (mem_enum_facts origP [] q hq).2⟩)
    (by refine ⟨List.nodup_nil, List.nodup_nil, ?_, ?_⟩ <;> intro m hm <;>
      exact absurd hm (List.not_mem_nil m))
  exact ⟨h.1, h.2.1, h.2.2.1⟩

end DiffEngine

namespace DiffEngine

open Tokenizer

theorem moveMapGet_fold_none (j : Nat) :
    ∀ (l : List Move) (acc : Option Move),
      l.foldl (fun acc m => if m.toIndex = j then some m else acc) acc = none →
      acc = none ∧ ∀ m ∈ l, m.toIndex ≠ j := by
  intro l
  induction l with
  | nil => intro acc h; exact ⟨h, by simp⟩
  | cons m rest ih =>
    intro acc h
    simp only [List.foldl_cons] at h
    by_cases hm : m.toIndex = j
    · rw [if_pos hm] at h
      have := (ih _ h).1
      exact absurd this (by simp)
    · rw [if_neg hm] at h
      obtain ⟨h1, h2⟩ := ih _ h
      refine ⟨h1, ?_⟩
      intro m' hm'
      rcases List.mem_cons.mp hm' with rfl | hm''
      · exact hm
      · exact h2 m' hm''

theorem moveMapGet_fold_some (j : Nat) (m : Move) :
    ∀ (l : List Move) (acc : Option Move),
      l.foldl (fun acc m => if m.toIndex = j then some m else acc) acc = some m →
      (m ∈ l ∧ m.toIndex = j) ∨ acc = some m := by
  intro l
  induction l with
  | nil => intro acc h; exact Or.inr h
  | cons m' rest ih =>
    intro acc h
    simp only [List.foldl_cons] at h
    by_cases hm : m'.toIndex = j
    · rw [if_pos hm] at h
      rcases ih _ h with ⟨h1, h2⟩ | h3
      · exact Or.inl ⟨List.mem_cons_of_mem _ h1, h2⟩
      · simp only [Option.some.injEq] at h3
        exact Or.inl ⟨by rw [h3]; exact List.mem_cons_self _ _, by rw [h3] at hm; exact hm⟩
    · rw [if_neg hm] at h
      rcases ih _ h with ⟨h1, h2⟩ | h3
      · exact Or.inl ⟨List.mem_cons_of_mem _ h1, h2⟩
      · exact Or.inr h3

theorem moveMapGet_some {moves : List Move} {j : Nat}
    (h : j ∈ moves.map Move.toIndex) :
    ∃ m, moveMapGet moves j = some m ∧ m ∈ moves ∧ m.toIndex = j := by
  rw [moveMapGet]
  rcases hr : moves.foldl (fun acc m => if m.toIndex = j then some m else acc)
      none with _ | m
  · exfalso
    obtain ⟨_, h2⟩ := moveMapGet_fold_none j moves none hr
    obtain ⟨mm, hmm, hto⟩ := List.mem_map.mp h
    exact h2 mm hmm hto
  · rcases moveMapGet_fold_some j m moves none hr with ⟨h1, h2⟩ | h3
    · exact ⟨m, hr, h1, h2⟩
    · exact absurd h3 (by simp)

end DiffEngine

namespace DiffEngine

open Tokenizer

theorem filter_to_split (moves : List Move) (j : Nat) :
    (moves.filter (fun m => decide (j ≤ m.toIndex))).Perm
      ((moves.filter (fun m => decide (m.toIndex = j)))
        ++ moves.filter (fun m => decide (j + 1 ≤ m.toIndex))) := by
  induction moves with
  | nil => simp
  | cons m rest ih =>
    by_cases h1 : m.toIndex = j
    · rw [List.filter_cons_of_pos (by simp; omega),
        List.filter_cons_of_pos (by simp [h1]),
        List.filter_cons_of_neg (by simp; omega)]
      simpa using List.Perm.cons m ih
    · by_cases h2 : j ≤ m.toIndex
      · rw [List.filter_cons_of_pos (by simp [h2]),
          List.filter_cons_of_neg (by simp [h1]),
          List.filter_cons_of_pos (by simp; omega)]
        refine (List.Perm.cons m ih).trans ?_
        exact List.perm_middle.symm
      · rw [List.filter_cons_of_neg (by simp [h2]),
          List.filter_cons_of_neg (by simp [h1]),
          List.filter_cons_of_neg (by simp; omega)]
        exact ih

theorem filter_toIndex_singleton :
    ∀ (moves : List Move) (j : Nat) (m : Move),
      (moves.map Move.toIndex).Nodup → m ∈ moves → m.toIndex = j →
      moves.filter (fun m' => decide (m'.toIndex = j)) = [m] := by
  intro moves
  induction moves with
  | nil => intro j m _ hm _; exact absurd hm (List.not_mem_nil m)
  | cons m' rest ih =>
    intro j m hnd hm hj
    simp only [List.map_cons, List.nodup_cons] at hnd
    rcases List.mem_cons.mp hm with rfl | hm'
    · rw [List.filter_cons_of_pos (by simp [hj])]
      congr 1
      refine List.filter_eq_nil.mpr ?_
      intro m'' hm''
      simp only [decide_eq_true_eq]
      intro hc
      apply hnd.1
      rw [hj, ← hc]
      exact List.mem_map.mpr ⟨m'', hm'', rfl⟩
    · rw [List.filter_cons_of_neg ?_]
      · exact ih j m hnd.2 hm' hj
      · simp only [decide_eq_true_eq]
        intro hc
        apply hnd.1
        rw [hc, ← hj]
        exact List.mem_map.mpr ⟨m, hm', rfl⟩

theorem filter_toIndex_none {moves : List Move} {j : Nat}
    (h : j ∉ moves.map Move.toIndex) :
    moves.filter (fun m' => decide (m'.toIndex = j)) = [] := by
  refine List.filter_eq_nil.mpr ?_
  intro m hm
  simp only [decide_eq_true_eq]
  intro hc
  exact h (List.mem_map.mpr ⟨m, hm, hc⟩)

theorem filter_shift {moves : List Move} {j : Nat}
    (h : j ∉ moves.map Move.toIndex) :
    (moves.filter (fun m => decide (j ≤ m.toIndex))).Perm
      (moves.filter (fun m => decide (j + 1 ≤ m.toIndex))) := by
  refine (filter_to_split moves j).trans ?_
  rw [filter_toIndex_none h]
  simp

end DiffEngine

namespace DiffEngine

open Tokenizer

theorem alignLoop_perm (origP revP : List Str) (moves : List Move)
    (hnt : (moves.map Move.toIndex).Nodup)
    (hbound : ∀ m ∈ moves, m.fromIndex < origP.length ∧
      m.toIndex < revP.length) :
    ∀ (fuel i j : Nat), (origP.length - i) + (revP.length - j) ≤ fuel →
      (((alignLoop origP revP moves fuel i j).filterMap
          Alignment.originalIndex).Perm
        (((List.range' i (origP.length - i)).filter
            (fun t => decide (t ∉ moves.map Move.fromIndex)))
          ++ (moves.filter (fun m => decide (j ≤ m.toIndex))).map
              Move.fromIndex)) ∧
      ((alignLoop origP revP moves fuel i j).filterMap
          Alignment.revisedIndex).Perm
        (List.range' j (revP.length - j)) := by
  intro fuel
  induction fuel with
  | zero =>
    intro i j hf
    have hi : origP.length - i = 0 := by omega
    have hj : revP.length - j = 0 := by omega
    have h2 : moves.filter (fun m => decide (j ≤ m.toIndex)) = [] :=
      List.filter_eq_nil.mpr (fun m hm => by
        have := (hbound m hm).2
        simp only [decide_eq_true_eq]
        omega)
    constructor
    · simp only [alignLoop, List.filterMap_nil, hi, h2]
      simp
    · simp only [alignLoop, List.filterMap_nil, hj]
      simp
  | succ fuel ih =>
    intro i j hf
    rw [alignLoop]
    by_cases houter : i < origP.length ∨ j < revP.length
    swap
    · rw [if_neg houter]
      push_neg at houter
      have hi : origP.length - i = 0 := by omega
      have hj : revP.length - j = 0 := by omega
      have h2 : moves.filter (fun m => decide (j ≤ m.toIndex)) = [] :=
        List.filter_eq_nil.mpr (fun m hm => by
          have := (hbound m hm).2
          simp only [decide_eq_true_eq]
          omega)
      constructor
      · simp only [List.filterMap_nil, hi, h2]
        simp
      · simp only [List.filterMap_nil, hj]
        simp
    · rw [if_pos houter]
      by_cases h1 : j < revP.length ∧ j ∈ moves.map (·.toIndex)
      · rw [if_pos h1]
        obtain ⟨m, hmg, hmem, hto⟩ := moveMapGet_some h1.2
        rw [hmg]
        obtain ⟨ihO, ihR⟩ := ih i (j + 1) (by omega)
        constructor
        · simp only [List.filterMap_cons]
          refine (List.Perm.cons m.fromIndex ihO).trans ?_
          have hsplit := filter_to_split moves j
          have hsing := filter_toIndex_singleton moves j m hnt hmem hto
          refine List.Perm.trans List.perm_middle.symm ?_
          refine List.Perm.append_left _ ?_
          have : (m.fromIndex ::
              (moves.filter (fun m => decide (j + 1 ≤ m.toIndex))).map
                Move.fromIndex)
              = ((moves.filter (fun m' => decide (m'.toIndex = j))
                  ++ moves.filter (fun m => decide (j + 1 ≤ m.toIndex))).map
                    Move.fromIndex) := by
            rw [hsing]
            simp
          rw [this]
          exact (List.Perm.map Move.fromIndex hsplit).symm
        · simp only [List.filterMap_cons]
          rw [show revP.length - j = (revP.length - (j + 1)) + 1 by omega,
            List.range'_succ]
          exact List.Perm.cons j ihR
      · rw [if_neg h1]
        by_cases h2 : i < origP.length ∧ i ∈ moves.map (·.fromIndex)
        · rw [if_pos h2]
          obtain ⟨ihO, ihR⟩ := ih (i + 1) j (by omega)
          constructor
          · rw [show origP.length - i = (origP.length - (i + 1)) + 1 by omega,
              List.range'_succ]
            rw [List.filter_cons_of_neg (by simp [h2.2])]
            exact ihO
          · exact ihR
        · rw [if_neg h2]
          by_cases h3 : i < origP.length ∧ j < revP.length
          · rw [if_pos h3]
            have hiF : i ∉ moves.map Move.fromIndex := fun hc => h2 ⟨h3.1, hc⟩
            have hjT : j ∉ moves.map Move.toIndex := fun hc => h1 ⟨h3.2, hc⟩
            have hshift := @filter_shift moves _ hjT
            have HB : ∀ (A : Alignment), A.originalIndex = some i →
                A.revisedIndex = some j →
                (((A :: alignLoop origP revP moves fuel (i + 1) (j + 1)).filterMap
                    Alignment.originalIndex).Perm
                  (((List.range' i (origP.length - i)).filter
                      (fun t => decide (t ∉ moves.map Move.fromIndex)))
                    ++ (moves.filter (fun m => decide (j ≤ m.toIndex))).map
                        Move.fromIndex)) ∧
                ((A :: alignLoop origP revP moves fuel (i + 1) (j + 1)).filterMap
                    Alignment.revisedIndex).Perm
                  (List.range' j (revP.length - j)) := by
              intro A hAo hAr
              obtain ⟨ihO, ihR⟩ := ih (i + 1) (j + 1) (by omega)
              constructor
              · simp only [List.filterMap_cons, hAo]
                rw [show origP.length - i = (origP.length - (i + 1)) + 1
                  by omega, List.range'_succ]
                rw [List.filter_cons_of_pos (by simp [hiF])]
                rw [List.cons_append]
                refine List.Perm.cons i ?_
                refine ihO.trans ?_
                exact List.Perm.append_left _
                  (List.Perm.map Move.fromIndex hshift.symm)
              · simp only [List.filterMap_cons, hAr]
                rw [show revP.length - j = (revP.length - (j + 1)) + 1 by omega,
                  List.range'_succ]
                exact List.Perm.cons j ihR
            have HD : ∀ (A : Alignment), A.originalIndex = some i →
                A.revisedIndex = none →
                (((A :: alignLoop origP revP moves fuel (i + 1) j).filterMap
                    Alignment.originalIndex).Perm
                  (((List.range' i (origP.length - i)).filter
                      (fun t => decide (t ∉ moves.map Move.fromIndex)))
                    ++ (moves.filter (fun m => decide (j ≤ m.toIndex))).map
                        Move.fromIndex)) ∧
                ((A :: alignLoop origP revP moves fuel (i + 1) j).filterMap
                    Alignment.revisedIndex).Perm
                  (List.range' j (revP.length - j)) := by
              intro A hAo hAr
              obtain ⟨ihO, ihR⟩ := ih (i + 1) j (by omega)
              constructor
              · simp only [List.filterMap_cons, hAo]
                rw [show origP.length - i = (origP.length - (i + 1)) + 1
                  by omega, List.range'_succ]
                rw [List.filter_cons_of_pos (by simp [hiF])]
                rw [List.cons_append]
                exact List.Perm.cons i ihO
              · simp only [List.filterMap_cons, hAr]
                exact ihR
            have HA : ∀ (A : Alignment), A.originalIndex = none →
                A.revisedIndex = some j →
                (((A :: alignLoop origP revP moves fuel i (j + 1)).filterMap
                    Alignment.originalIndex).Perm
                  (((List.range' i (origP.length - i)).filter
                      (fun t => decide (t ∉ moves.map Move.fromIndex)))
                    ++ (moves.filter (fun m => decide (j ≤ m.toIndex))).map
                        Move.fromIndex)) ∧
                ((A :: alignLoop origP revP moves fuel i (j + 1)).filterMap
                    Alignment.revisedIndex).Perm
                  (List.range' j (revP.length - j)) := by
              intro A hAo hAr
              obtain ⟨ihO, ihR⟩ := ih i (j + 1) (by omega)
              constructor
              · simp only [List.filterMap_cons, hAo]
                refine ihO.trans ?_
                exact List.Perm.append_left _
                  (List.Perm.map Move.fromIndex hshift.symm)
              · simp only [List.filterMap_cons, hAr]
                rw [show revP.length - j = (revP.length - (j + 1)) + 1 by omega,
                  List.range'_succ]
                exact List.Perm.cons j ihR
            dsimp only
            by_cases hc1 : Tokenizer.fingerprint (origP.getD i [])
                = Tokenizer.fingerprint (revP.getD j [])
            · rw [if_pos hc1]
              exact HB ⟨AlignType.unchanged, some (origP.getD i []),
                some (revP.getD j []), some i, some j, none, none⟩ rfl rfl
            · rw [if_neg hc1]
              by_cases hc2 : paragraphSimilarity (origP.getD i [])
                  (revP.getD j []) > 3 / 10
              · rw [if_pos hc2]
                exact HB ⟨AlignType.modified, some (origP.getD i []),
                  some (revP.getD j []), some i, some j, none, none⟩ rfl rfl
              · rw [if_neg hc2]
                by_cases hc3 :
                    (if j + 1 < revP.length then
                      paragraphSimilarity (origP.getD i [])
                        (revP.getD (j + 1) []) else 0)
                    < (if i + 1 < origP.length then
                      paragraphSimilarity (origP.getD (i + 1) [])
                        (revP.getD j []) else 0) ∧
                    3 / 10 < (if i + 1 < origP.length then
                      paragraphSimilarity (origP.getD (i + 1) [])
                        (revP.getD j []) else 0)
                · rw [if_pos hc3]
                  exact HD ⟨AlignType.deleted, some (origP.getD i []),
                    none, some i, none, none, none⟩ rfl rfl
                · rw [if_neg hc3]
                  by_cases hc4 : 3 / 10 < (if j + 1 < revP.length then
                      paragraphSimilarity (origP.getD i [])
                        (revP.getD (j + 1) []) else 0)
                  · rw [if_pos hc4]
                    exact HA ⟨AlignType.added, none, some (revP.getD j []),
                      none, some j, none, none⟩ rfl rfl
                  · rw [if_neg hc4]
                    exact HB ⟨AlignType.modified, some (origP.getD i []),
                      some (revP.getD j []), some i, some j, none, none⟩ rfl rfl
          · rw [if_neg h3]
            by_cases h4 : i < origP.length
            · rw [if_pos h4]
              have hiF : i ∉ moves.map Move.fromIndex := fun hc => h2 ⟨h4, hc⟩
              rw [if_neg hiF]
              simp only [List.singleton_append]
              obtain ⟨ihO, ihR⟩ := ih (i + 1) j (by omega)
              constructor
              · simp only [List.filterMap_cons]
                rw [show origP.length - i = (origP.length - (i + 1)) + 1
                  by omega, List.range'_succ]
                rw [List.filter_cons_of_pos (by simp [hiF])]
                rw [List.cons_append]
                exact List.Perm.cons i ihO
              · simp only [List.filterMap_cons]
                exact ihR
            · rw [if_neg h4]
              have hjr : j < revP.length := by
                rcases houter with h | h
                · exact absurd h h4
                · exact h
              have hjT : j ∉ moves.map (·.toIndex) := fun hc => h1 ⟨hjr, hc⟩
              rw [if_neg hjT]
              simp only [List.singleton_append]
              have hshift := @filter_shift moves _ hjT
              obtain ⟨ihO, ihR⟩ := ih i (j + 1) (by omega)
              constructor
              · simp only [List.filterMap_cons]
                refine ihO.trans ?_
                exact List.Perm.append_left _
                  (List.Perm.map Move.fromIndex hshift.symm)
              · simp only [List.filterMap_cons]
                rw [show revP.length - j = (revP.length - (j + 1)) + 1 by omega,
                  List.range'_succ]
                exact List.Perm.cons j ihR

end DiffEngine

namespace DiffEngine

open Tokenizer

theorem filter_not_mem_append_perm (F : List Nat) (L : Nat)
    (hnd : F.Nodup) (hb : ∀ t ∈ F, t < L) :
    (((List.range L).filter (fun t => decide (t ∉ F))) ++ F).Perm
      (List.range L) := by
  have hsplit := List.filter_append_perm
    (fun t => decide (t ∉ F)) (List.range L)
  refine List.Perm.trans ?_ hsplit
  refine List.Perm.append_left _ ?_
  have hnd2 : ((List.range L).filter
      (fun t => !(decide (t ∉ F)))).Nodup :=
    (List.nodup_range L).filter _
  rw [List.perm_ext_iff_of_nodup hnd hnd2]
  intro t
  simp only [List.mem_filter, List.mem_range, Bool.not_eq_true',
    decide_eq_false_iff_not, not_not]
  constructor
  · intro ht
    exact ⟨hb t ht, ht⟩
  · intro ht
    exact ht.2

/-- C3: the alignment list that `compare` produces partitions both paragraph
sequences: the original indices carried by the paragraph diffs are a
permutation of `0..len(original)-1`, and the revised indices are a
permutation of `0..len(revised)-1`; no index is lost or duplicated. -/
theorem claim_C3 (a b : Str) :
    (((DiffEngine.compare a b).paragraphs.filterMap
        ParagraphDiff.originalIndex).Perm
      (List.range (Tokenizer.splitParagraphs a).length)) ∧
    (((DiffEngine.compare a b).paragraphs.filterMap
        ParagraphDiff.revisedIndex).Perm
      (List.range (Tokenizer.splitParagraphs b).length)) := by
  have hfacts := detectMoved_facts (Tokenizer.splitParagraphs a)
    (Tokenizer.splitParagraphs b)
  have hperm := alignLoop_perm (Tokenizer.splitParagraphs a)
    (Tokenizer.splitParagraphs b)
    (detectMovedParagraphs (Tokenizer.splitParagraphs a)
      (Tokenizer.splitParagraphs b))
    hfacts.2.1
    (fun m hm => ⟨(hfacts.2.2 m hm).1, (hfacts.2.2 m hm).2.1⟩)
    ((Tokenizer.splitParagraphs a).length
      + (Tokenizer.splitParagraphs b).length) 0 0 (by omega)
  obtain ⟨hO, hR⟩ := hperm
  have hmapO : (DiffEngine.compare a b).paragraphs.filterMap
      ParagraphDiff.originalIndex
      = (alignParagraphs (Tokenizer.splitParagraphs a)
          (Tokenizer.splitParagraphs b)
          (detectMovedParagraphs (Tokenizer.splitParagraphs a)
            (Tokenizer.splitParagraphs b))).filterMap
        Alignment.originalIndex := by
    rw [DiffEngine.compare]
    simp only [List.filterMap_map]
    rfl
  have hmapR : (DiffEngine.compare a b).paragraphs.filterMap
      ParagraphDiff.revisedIndex
      = (alignParagraphs (Tokenizer.splitParagraphs a)
          (Tokenizer.splitParagraphs b)
          (detectMovedParagraphs (Tokenizer.splitParagraphs a)
            (Tokenizer.splitParagraphs b))).filterMap
        Alignment.revisedIndex := by
    rw [DiffEngine.compare]
    simp only [List.filterMap_map]
    rfl
  rw [alignParagraphs] at hmapO hmapR
  constructor
  · rw [hmapO]
    simp only [Nat.sub_zero] at hO
    rw [← List.range_eq_range'] at hO
    refine hO.trans ?_
    have hall : (detectMovedParagraphs (Tokenizer.splitParagraphs a)
        (Tokenizer.splitParagraphs b)).filter
          (fun m => decide (0 ≤ m.toIndex)) =
        detectMovedParagraphs (Tokenizer.splitParagraphs a)
          (Tokenizer.splitParagraphs b) := by
      refine List.filter_eq_self.mpr ?_
      intro m _
      simp
    rw [hall]
    refine filter_not_mem_append_perm _ _ hfacts.1 ?_
    intro t ht
    obtain ⟨m, hm, rfl⟩ := List.mem_map.mp ht
    exact (hfacts.2.2 m hm).1
  · rw [hmapR]
    simp only [Nat.sub_zero] at hR
    rw [← List.range_eq_range'] at hR
    exact hR

end DiffEngine

namespace DiffEngine

open Tokenizer

/-- C10: the Jaccard paragraph similarity is symmetric. -/
theorem claim_C10 (p q : Str) :
    paragraphSimilarity p q = paragraphSimilarity q p := by
  simp only [paragraphSimilarity]
  rw [Finset.inter_comm]
  rw [Nat.add_comm ((splitWs (p.map Tokenizer.lowerChar)).toFinset.card)
    ((splitWs (q.map Tokenizer.lowerChar)).toFinset.card)]

end DiffEngine

namespace Tokenizer

theorem hashStep_mod (hI : Int) (hN u : Nat) (h : hI % 2 ^ 32 = (hN : Int) % 2 ^ 32) :
    (hashStep hI u) % 2 ^ 32 = (((33 * hN + u) % 2 ^ 32 : Nat) : Int) % 2 ^ 32 := by
  unfold hashStep toInt32
  push_cast
  omega

theorem foldl_hashStep_mod : ∀ (l : List Nat) (hI : Int) (hN : Nat),
    hI % 2 ^ 32 = (hN : Int) % 2 ^ 32 →
    (l.foldl hashStep hI) % 2 ^ 32 =
      ((l.foldl (fun h u => (33 * h + u) % 2 ^ 32) hN : Nat) : Int) % 2 ^ 32
  | [], _, _, h => h
  | u :: rest, hI, hN, h => by
    simp only [List.foldl_cons]
    exact foldl_hashStep_mod rest (hashStep hI u) ((33 * hN + u) % 2 ^ 32)
      (hashStep_mod hI hN u h)

theorem djb2_foldl_lt : ∀ (l : List Nat) (hN : Nat), hN < 2 ^ 32 →
    l.foldl (fun h u => (33 * h + u) % 2 ^ 32) hN < 2 ^ 32
  | [], _, h => h
  | u :: rest, hN, _ => by
    simp only [List.foldl_cons]
    exact djb2_foldl_lt rest _ (Nat.mod_lt _ (by norm_num))

theorem fingerprint_eq_djb2 (s : Str) :
    fingerprint s = djb2Units (utf16Encode (normalize s)) := by
  unfold fingerprint djb2Units
  have h := foldl_hashStep_mod (utf16Encode (normalize s)) 5381 5381 rfl
  have hlt := djb2_foldl_lt (utf16Encode (normalize s)) 5381 (by norm_num)
  omega

theorem lowerChar_idem (c : Nat) : lowerChar (lowerChar c) = lowerChar c := by
  by_cases h : 0x41 ≤ c ∧ c ≤ 0x5A
  · simp only [lowerChar, if_pos h]
    rw [if_neg (by omega)]
  · simp only [lowerChar, if_neg h]

theorem keepCp_lowerChar (c : Nat) : keepCp (lowerChar c) = keepCp c := by
  by_cases h : 0x41 ≤ c ∧ c ≤ 0x5A
  · have h1 : keepCp (c + 0x20) = true := by
      simp only [keepCp, isLetterCp, Bool.or_eq_true, Bool.and_eq_true, Nat.ble_eq]
      left; left; left
      omega
    have h2 : keepCp c = true := by
      simp only [keepCp, isLetterCp, Bool.or_eq_true, Bool.and_eq_true, Nat.ble_eq]
      left; left; left
      omega
    simp only [lowerChar, if_pos h, h1, h2]
  · simp only [lowerChar, if_neg h]

theorem filter_keep_map_lower (s : Str) :
    (s.map lowerChar).filter keepCp = (s.filter keepCp).map lowerChar := by
  rw [List.filter_map]
  congr 1
  apply List.filter_congr
  intro c _
  simpa using keepCp_lowerChar c

theorem map_lower_idem (s : Str) :
    (s.map lowerChar).map lowerChar = s.map lowerChar := by
  rw [List.map_map]
  apply List.map_congr_left
  intro c _
  simpa using lowerChar_idem c

theorem filter_keep_idem (s : Str) :
    (s.filter keepCp).filter keepCp = s.filter keepCp := by
  rw [List.filter_filter]
  apply List.filter_congr
  intro c _
  exact Bool.and_self _

theorem normalize_map_lower (s : Str) : normalize (s.map lowerChar) = normalize s := by
  unfold normalize
  rw [map_lower_idem]

theorem normalize_filter_keep (s : Str) : normalize (s.filter keepCp) = normalize s := by
  unfold normalize
  rw [← filter_keep_map_lower, filter_keep_idem]

/-- C7 counterexample: the code hashes UTF-16 code units (`charCodeAt`), not
code points; on the astral Gothic letter U+10330 (which survives normalization
unchanged) the code's fingerprint differs from the spec's per-codepoint djb2. -/
theorem claim_C7_counterexample :
    ¬ (fingerprint [0x10330] = specFingerprint [0x10330]) := by decide

/-- C7 (amended): `fingerprint` equals the djb2 recurrence
`h = 5381; h = (33*h + u) mod 2^32` applied to each UTF-16 *code unit* of the
normalized text (rather than to each code point as the spec says); it is a
pure function of its argument, and lowercasing the input or removing
characters outside letters/digits/whitespace never changes the result. -/
theorem claim_C7_amended (s : Str) :
    fingerprint s = djb2Units (utf16Encode (normalize s)) ∧
    fingerprint (s.map lowerChar) = fingerprint s ∧
    fingerprint (s.filter keepCp) = fingerprint s := by
  refine ⟨fingerprint_eq_djb2 s, ?_, ?_⟩
  · unfold fingerprint
    rw [normalize_map_lower]
  · unfold fingerprint
    rw [normalize_filter_keep]

end Tokenizer

namespace Tokenizer

theorem replaceCRLF_ws (s : Str) :
    (∀ c ∈ s, isWsCp c = true) → ∀ c ∈ replaceCRLF s, isWsCp c = true := by
  induction s using replaceCRLF.induct with
  | case1 rest ih =>
    intro hws c hc
    rw [show replaceCRLF (13 :: 10 :: rest) = 10 :: replaceCRLF rest from rfl] at hc
    rcases List.mem_cons.mp hc with h1 | h2
    · subst h1; decide
    · exact ih (fun d hd => hws d (List.mem_cons_of_mem _ (List.mem_cons_of_mem _ hd))) c h2
  | case2 a rest hne ih =>
    intro hws c hc
    rw [replaceCRLF.eq_def] at hc
    revert hc
    split
    · rename_i r h1
      exfalso
      injection h1 with h1a h1b
      exact hne r h1a h1b
    · rename_i a' rest' h1
      intro hc
      injection h1 with h1a h1b
      rcases List.mem_cons.mp hc with h2 | h3
      · exact hws c (by rw [h2, ← h1a]; exact List.mem_cons_self _ _)
      · rw [← h1b] at h3
        exact ih (fun d hd => hws d (List.mem_cons_of_mem _ hd)) c h3
    · intro hc
      simp at hc
  | case3 =>
    intro _ c hc
    simp [replaceCRLF] at hc

theorem splitBlankAux_mem : ∀ (fuel : Nat) (cur s piece : Str),
    piece ∈ splitBlankAux fuel cur s → ∀ c ∈ piece, c ∈ cur ∨ c ∈ s := by
  intro fuel
  induction fuel with
  | zero =>
    intro cur s piece hp c hc
    cases s with
    | nil =>
      rw [show splitBlankAux 0 cur [] = [cur.reverse] from rfl] at hp
      rcases List.mem_singleton.mp hp with h1
      left
      rw [h1] at hc
      exact List.mem_reverse.mp hc
    | cons c0 rest =>
      rw [show splitBlankAux 0 cur (c0 :: rest) = [cur.reverse ++ (c0 :: rest)] from rfl] at hp
      rcases List.mem_singleton.mp hp with h1
      rw [h1] at hc
      rcases List.mem_append.mp hc with h2 | h3
      · left; exact List.mem_reverse.mp h2
      · right; exact h3
  | succ n ih =>
    intro cur s piece hp c hc
    cases s with
    | nil =>
      rw [show splitBlankAux (n + 1) cur [] = [cur.reverse] from rfl] at hp
      rcases List.mem_singleton.mp hp with h1
      left
      rw [h1] at hc
      exact List.mem_reverse.mp hc
    | cons c0 rest =>
      simp only [splitBlankAux] at hp
      by_cases hc0 : c0 = 10
      · rw [if_pos hc0] at hp
        by_cases hrun : (rest.takeWhile isWsCp).contains 10
        · rw [if_pos hrun] at hp
          rcases List.mem_cons.mp hp with h1 | h2
          · left
            rw [h1] at hc
            exact List.mem_reverse.mp hc
          · rcases ih [] _ piece h2 c hc with h3 | h4
            · exact absurd h3 (List.not_mem_nil c)
            · right
              exact List.mem_cons_of_mem _ (List.mem_of_mem_drop h4)
        · rw [if_neg hrun] at hp
          rcases ih (c0 :: cur) rest piece hp c hc with h3 | h4
          · rcases List.mem_cons.mp h3 with h5 | h6
            · right; rw [h5]; exact List.mem_cons_self _ _
            · left; exact h6
          · right; exact List.mem_cons_of_mem _ h4
      · rw [if_neg hc0] at hp
        rcases ih (c0 :: cur) rest piece hp c hc with h3 | h4
        · rcases List.mem_cons.mp h3 with h5 | h6
          · right; rw [h5]; exact List.mem_cons_self _ _
          · left; exact h6
        · right; exact List.mem_cons_of_mem _ h4

theorem trim_ws (s : Str) (h : ∀ c ∈ s, isWsCp c = true) : trim s = [] := by
  unfold trim
  rw [List.dropWhile_eq_nil_iff.mpr h]
  simp

end Tokenizer

namespace DiffEngine

open Tokenizer

/-- C9: a whitespace-only (in particular empty) text splits into zero
paragraphs, and `compare("", "")` returns an empty paragraph list with all six
statistics equal to zero. -/
theorem claim_C9 (s : Str) (h : ∀ c ∈ s, Tokenizer.isWsCp c = true) :
    Tokenizer.splitParagraphs s = [] ∧
    DiffEngine.compare [] [] = ⟨[], ⟨0, 0, 0, 0, 0, 0⟩⟩ := by
  constructor
  · unfold splitParagraphs
    apply List.filter_eq_nil_iff.mpr
    intro p hp
    simp only [List.mem_map] at hp
    obtain ⟨q, hq, hq2⟩ := hp
    have hqw : ∀ c ∈ q, isWsCp c = true := by
      intro c hc
      rcases splitBlankAux_mem _ _ _ _ hq c hc with h1 | h2
      · exact absurd h1 (List.not_mem_nil c)
      · exact replaceCRLF_ws s h c h2
    rw [← hq2, trim_ws q hqw]
    decide
  · decide

/-- C9 witness: the concrete whitespace-only text `" \n"`. -/
theorem claim_C9_witness :
    (∀ c ∈ str " \n", Tokenizer.isWsCp c = true) ∧
    (Tokenizer.splitParagraphs (str " \n") = [] ∧
     DiffEngine.compare [] [] = ⟨[], ⟨0, 0, 0, 0, 0, 0⟩⟩) :=
  ⟨by decide, claim_C9 (str " \n") (by decide)⟩

end DiffEngine

namespace DiffEngine

open Tokenizer

/-- C6: refuted on a swap of two paragraphs.  The alignment built by
`alignParagraphs` records the second revised paragraph as moved from original
index `0`, but `compare` copies the field through `alignment.movedFrom || null`
and JavaScript treats the index `0` as falsy, so the resulting ParagraphDiff
carries `movedFrom = null` for a genuine move whose source index is `0`. -/
theorem claim_C6_violation :
    ((alignParagraphs (splitParagraphs (str "a\n\nb")) (splitParagraphs (str "b\n\na"))
        (detectMovedParagraphs (splitParagraphs (str "a\n\nb"))
          (splitParagraphs (str "b\n\na")))).getD 1
      ⟨AlignType.unchanged, none, none, none, none, none, none⟩).type = AlignType.moved ∧
    ((alignParagraphs (splitParagraphs (str "a\n\nb")) (splitParagraphs (str "b\n\na"))
        (detectMovedParagraphs (splitParagraphs (str "a\n\nb"))
          (splitParagraphs (str "b\n\na")))).getD 1
      ⟨AlignType.unchanged, none, none, none, none, none, none⟩).movedFrom = some 0 ∧
    ((DiffEngine.compare (str "a\n\nb") (str "b\n\na")).paragraphs.getD 1
      ⟨AlignType.unchanged, none, none, [], none, none⟩).movedFrom = none := by
  decide

end DiffEngine

namespace DiffEngine

open Tokenizer

theorem alignLoop_fuel (origP revP : List Str) (moves : List Move) :
    ∀ (m fuel fuel' i j : Nat),
      (origP.length - i) + (revP.length - j) ≤ m →
      (origP.length - i) + (revP.length - j) ≤ fuel →
      (origP.length - i) + (revP.length - j) ≤ fuel' →
      alignLoop origP revP moves fuel i j = alignLoop origP revP moves fuel' i j := by
  intro m
  induction m with
  | zero =>
    intro fuel fuel' i j hm _ _
    have hcond : ¬ (i < origP.length ∨ j < revP.length) := by omega
    cases fuel with
    | zero =>
      cases fuel' with
      | zero => rfl
      | succ f' => simp only [alignLoop]; rw [if_neg hcond]
    | succ f =>
      cases fuel' with
      | zero => simp only [alignLoop]; rw [if_neg hcond]
      | succ f' => simp only [alignLoop]; rw [if_neg hcond, if_neg hcond]
  | succ m ih =>
    intro fuel fuel' i j hm hf hf'
    by_cases hout : i < origP.length ∨ j < revP.length
    swap
    · cases fuel with
      | zero =>
        cases fuel' with
        | zero => rfl
        | succ f' => simp only [alignLoop]; rw [if_neg hout]
      | succ f =>
        cases fuel' with
        | zero => simp only [alignLoop]; rw [if_neg hout]
        | succ f' => simp only [alignLoop]; rw [if_neg hout, if_neg hout]
    · cases fuel with
      | zero => omega
      | succ f =>
        cases fuel' with
        | zero => omega
        | succ f' =>
          simp only [alignLoop]
          rw [if_pos hout, if_pos hout]
          by_cases h1 : j < revP.length ∧ j ∈ moves.map (·.toIndex)
          · rw [if_pos h1, if_pos h1]
            cases hmg : moveMapGet moves j with
            | none => rfl
            | some mv =>
              rw [ih f f' i (j + 1) (by omega) (by omega) (by omega)]
          · rw [if_neg h1, if_neg h1]
            by_cases h2 : i < origP.length ∧ i ∈ moves.map (·.fromIndex)
            · rw [if_pos h2, if_pos h2]
              exact ih f f' (i + 1) j (by omega) (by omega) (by omega)
            · rw [if_neg h2, if_neg h2]
              by_cases h3 : i < origP.length ∧ j < revP.length
              · rw [if_pos h3, if_pos h3]
                by_cases hc1 : Tokenizer.fingerprint (origP.getD i [])
                    = Tokenizer.fingerprint (revP.getD j [])
                · rw [if_pos hc1, if_pos hc1]
                  rw [ih f f' (i + 1) (j + 1) (by omega) (by omega) (by omega)]
                · rw [if_neg hc1, if_neg hc1]
                  by_cases hc2 : paragraphSimilarity (origP.getD i [])
                      (revP.getD j []) > 3 / 10
                  · rw [if_pos hc2, if_pos hc2]
                    rw [ih f f' (i + 1) (j + 1) (by omega) (by omega) (by omega)]
                  · rw [if_neg hc2, if_neg hc2]
                    by_cases hc3 :
                        (if j + 1 < revP.length then
                          paragraphSimilarity (origP.getD i [])
                            (revP.getD (j + 1) []) else 0)
                        < (if i + 1 < origP.length then
                          paragraphSimilarity (origP.getD (i + 1) [])
                            (revP.getD j []) else 0) ∧
                        3 / 10 < (if i + 1 < origP.length then
                          paragraphSimilarity (origP.getD (i + 1) [])
                            (revP.getD j []) else 0)
                    · rw [if_pos hc3, if_pos hc3]
                      rw [ih f f' (i + 1) j (by omega) (by omega) (by omega)]
                    · rw [if_neg hc3, if_neg hc3]
                      by_cases hc4 : 3 / 10 < (if j + 1 < revP.length then
                          paragraphSimilarity (origP.getD i [])
                            (revP.getD (j + 1) []) else 0)
                      · rw [if_pos hc4, if_pos hc4]
                        rw [ih f f' i (j + 1) (by omega) (by omega) (by omega)]
                      · rw [if_neg hc4, if_neg hc4]
                        rw [ih f f' (i + 1) (j + 1) (by omega) (by omega) (by omega)]
              · rw [if_neg h3, if_neg h3]
                by_cases h4 : i < origP.length
                · rw [if_pos h4, if_pos h4]
                  rw [ih f f' (i + 1) j (by omega) (by omega) (by omega)]
                · rw [if_neg h4, if_neg h4]
                  rw [ih f f' i (j + 1) (by omega) (by omega) (by omega)]

/-- C8: every loop of the engine reaches its natural exit: the Myers forward
phase always ends by the `break` firing (within `N + M + 1` rounds), the
alignment cursor loop is independent of any fuel at least the sum of the
remaining paragraph counts (so it terminates by cursor progress), and on
every pair of inputs `compare` returns a well-formed result whose derived
statistics satisfy the defining identities. -/
theorem claim_C8 :
    (∀ o n : List Token, (myersForward o n).2 = true) ∧
    (∀ (origP revP : List Str) (moves : List Move) (i j extra : Nat),
      alignLoop origP revP moves
          ((origP.length - i) + (revP.length - j) + extra) i j
        = alignLoop origP revP moves
            ((origP.length - i) + (revP.length - j)) i j) ∧
    (∀ a b : Str,
      (DiffEngine.compare a b).stats.wordsOriginal
          = (DiffEngine.compare a b).stats.wordsDeleted
            + (DiffEngine.compare a b).stats.wordsUnchanged ∧
      (DiffEngine.compare a b).stats.wordsRevised
          = (DiffEngine.compare a b).stats.wordsAdded
            + (DiffEngine.compare a b).stats.wordsUnchanged) := by
  refine ⟨?_, ?_, ?_⟩
  · intro o n
    rw [myersForward_trace]
  · intro origP revP moves i j extra
    exact alignLoop_fuel origP revP moves
      ((origP.length - i) + (revP.length - j) + extra)
      ((origP.length - i) + (revP.length - j) + extra)
      ((origP.length - i) + (revP.length - j)) i j
      (by omega) (by omega) (by omega)
  · intro a b
    exact ⟨rfl, rfl⟩

end DiffEngine

namespace DiffEngine

open Tokenizer

theorem foldl_id {α β : Type} (g : α → β → α) :
    ∀ (l : List β) (st : α), (∀ (st' : α) (b : β), b ∈ l → g st' b = st') →
      l.foldl g st = st
  | [], st, _ => rfl
  | b :: rest, st, h => by
    simp only [List.foldl_cons]
    rw [h st b (List.mem_cons_self _ _)]
    exact foldl_id g rest st (fun st' b' hb' => h st' b' (List.mem_cons_of_mem _ hb'))

theorem fingerprint_getD_inj (P : List Str)
    (h : (P.map Tokenizer.fingerprint).Nodup) :
    ∀ i j, i < P.length → j < P.length →
      Tokenizer.fingerprint (P.getD i []) = Tokenizer.fingerprint (P.getD j []) →
      i = j := by
  intro i j hi hj hfp
  have hi' : i < (P.map Tokenizer.fingerprint).length := by simpa using hi
  have hj' : j < (P.map Tokenizer.fingerprint).length := by simpa using hj
  refine (@List.Nodup.getElem_inj_iff _ _ h i hi' j hj').mp ?_
  rw [List.getElem_map, List.getElem_map]
  rw [← List.getD_eq_getElem P [] hi, ← List.getD_eq_getElem P [] hj]
  exact hfp

theorem detectMoved_self_nodup (P : List Str)
    (h : (P.map Tokenizer.fingerprint).Nodup) :
    detectMovedParagraphs P P = [] := by
  unfold detectMovedParagraphs
  dsimp only
  have hfacts : ∀ a ∈ P.enum.map (fun p => (p.2, Tokenizer.fingerprint p.2, p.1)),
      a.2.2 < P.length ∧ a.2.1 = Tokenizer.fingerprint (P.getD a.2.2 []) := by
    intro a ha
    obtain ⟨p, hp, hpa⟩ := List.mem_map.mp ha
    obtain ⟨h1, h2⟩ := mem_enum_facts P [] p hp
    rw [← hpa]
    exact ⟨h1, by rw [h2]⟩
  rw [foldl_id _ _ _ ?_]
  · intro st orig horig
    refine foldl_id _ _ st ?_
    intro st' rev hrev
    have hcond : ¬ (orig.2.1 = rev.2.1 ∧ orig.2.2 ≠ rev.2.2 ∧
        orig.2.2 ∉ st'.2.1 ∧ rev.2.2 ∉ st'.2.2) := by
      intro hc
      obtain ⟨hfp, hne, _⟩ := hc
      obtain ⟨ho1, ho2⟩ := hfacts orig horig
      obtain ⟨hr1, hr2⟩ := hfacts rev hrev
      exact hne (fingerprint_getD_inj P h orig.2.2 rev.2.2 ho1 hr1
        (by rw [← ho2, ← hr2, hfp]))
    rw [if_neg hcond]

theorem alignLoop_self_unchanged (P : List Str) :
    ∀ (fuel i : Nat), ∀ a ∈ alignLoop P P ([] : List Move) fuel i i,
      a.type = AlignType.unchanged ∧ a.original = a.revised ∧
        a.movedFrom = none ∧ a.movedTo = none := by
  intro fuel
  induction fuel with
  | zero =>
    intro i a ha
    simp only [alignLoop] at ha
    exact absurd ha (List.not_mem_nil a)
  | succ fuel ih =>
    intro i a ha
    simp only [alignLoop] at ha
    by_cases hi : i < P.length
    · rw [if_pos (Or.inl hi)] at ha
      rw [if_neg (by simp)] at ha
      rw [if_neg (by simp)] at ha
      rw [if_pos ⟨hi, hi⟩] at ha
      simp only [if_true] at ha
      rcases List.mem_cons.mp ha with h1 | h2
      · rw [h1]
        exact ⟨rfl, rfl, rfl, rfl⟩
      · exact ih (i + 1) a h2
    · rw [if_neg (by omega : ¬ (i < P.length ∨ i < P.length))] at ha
      exact absurd ha (List.not_mem_nil a)

theorem ereach_diag_self (t : List Token) : ∀ x, x ≤ t.length → EReach t t 0 x x := by
  intro x
  induction x with
  | zero => intro _; exact EReach.zero
  | succ x ih =>
    intro hx
    exact EReach.diag (by omega) (by omega) rfl (ih (by omega))

theorem firstBreak_self (t : List Token) : firstBreak t t = 0 :=
  Nat.le_zero.mp (reach_firstBreak_le (ereach_diag_self t t.length le_rfl))

theorem countEdits_zero_all_equal (s : List Op) (h : countEdits s = 0) :
    ∀ op ∈ s, op.type = OpType.equal := by
  intro op hop
  unfold countEdits at h
  rw [List.length_eq_zero] at h
  have h2 := List.filter_eq_nil_iff.mp h op hop
  simp only [Bool.or_eq_true, beq_iff_eq, not_or] at h2
  cases htype : op.type with
  | equal => rfl
  | insert => exact absurd htype h2.1
  | delete => exact absurd htype h2.2

theorem myersDiff_self_equal (t : List Token) :
    ∀ op ∈ myersDiff t t, op.type = OpType.equal := by
  have h := (myersDiff_reconstruct t t).2.2
  rw [firstBreak_self] at h
  exact countEdits_zero_all_equal _ h

theorem calculateStats_all_equal (ps : List ParagraphDiff)
    (h : ∀ p ∈ ps, (∀ op ∈ p.operations, op.type = OpType.equal) ∧
      p.movedFrom = none ∧ p.movedTo = none) :
    (calculateStats ps).wordsAdded = 0 ∧ (calculateStats ps).wordsDeleted = 0 ∧
      (calculateStats ps).paragraphsMoved = 0 := by
  refine ⟨?_, ?_, ?_⟩
  · simp only [calculateStats]
    apply List.sum_eq_zero
    intro x hx
    obtain ⟨p, hp, hxp⟩ := List.mem_map.mp hx
    rw [← hxp, List.length_eq_zero]
    apply List.filter_eq_nil_iff.mpr
    intro op hop
    have he := (h p hp).1 op hop
    simp [he]
  · simp only [calculateStats]
    apply List.sum_eq_zero
    intro x hx
    obtain ⟨p, hp, hxp⟩ := List.mem_map.mp hx
    rw [← hxp, List.length_eq_zero]
    apply List.filter_eq_nil_iff.mpr
    intro op hop
    have he := (h p hp).1 op hop
    simp [he]
  · simp only [calculateStats]
    rw [show ps.filter (fun p => p.movedFrom.isSome || p.movedTo.isSome) = []
      from List.filter_eq_nil_iff.mpr (fun p hp => by
        obtain ⟨_, h2, h3⟩ := h p hp
        simp [h2, h3])]
    rfl

theorem compare_self_key (A : Str)
    (h : ((Tokenizer.splitParagraphs A).map Tokenizer.fingerprint).Nodup) :
    ∀ p ∈ (DiffEngine.compare A A).paragraphs,
      (∀ op ∈ p.operations, op.type = OpType.equal) ∧
      p.movedFrom = none ∧ p.movedTo = none := by
  intro p hp
  simp only [DiffEngine.compare] at hp
  rw [detectMoved_self_nodup _ h] at hp
  rw [alignParagraphs] at hp
  obtain ⟨a, ha, hap⟩ := List.mem_map.mp hp
  obtain ⟨ht, hor, hmf, hmt⟩ := alignLoop_self_unchanged
    (Tokenizer.splitParagraphs A) _ 0 a ha
  rw [← hap]
  refine ⟨?_, ?_, ?_⟩
  · intro op hop
    simp only [alignmentToParagraph] at hop
    simp only [alignmentOps, ht] at hop
    rw [hor] at hop
    exact myersDiff_self_equal _ op hop
  · simp only [alignmentToParagraph, hmf, jsOrNull]
  · simp only [alignmentToParagraph, hmt, jsOrNull]

/-- C4 counterexample: on the text `"a\n\na"` (two identical paragraphs),
`compare(A, A)` reports `paragraphsMoved = 2`, not `0`: each duplicate
paragraph is greedily matched to the *other* copy's position by
`detectMovedParagraphs` (equal fingerprints at different indices), so the
self-comparison emits two `moved` paragraphs. -/
theorem claim_C4_counterexample :
    ¬ ((DiffEngine.compare (str "a\n\na") (str "a\n\na")).stats.paragraphsMoved
        = 0) := by
  decide

/-- C4 (amended): if the paragraphs of `A` have pairwise distinct
fingerprints (in particular, no duplicated paragraph), then `compare(A, A)`
yields only `equal` operations and `wordsAdded = wordsDeleted =
paragraphsMoved = 0`. -/
theorem claim_C4_amended (A : Str)
    (h : ((Tokenizer.splitParagraphs A).map Tokenizer.fingerprint).Nodup) :
    (∀ p ∈ (DiffEngine.compare A A).paragraphs, ∀ op ∈ p.operations,
      op.type = OpType.equal) ∧
    (DiffEngine.compare A A).stats.wordsAdded = 0 ∧
    (DiffEngine.compare A A).stats.wordsDeleted = 0 ∧
    (DiffEngine.compare A A).stats.paragraphsMoved = 0 := by
  have hkey := compare_self_key A h
  have hstats : (DiffEngine.compare A A).stats
      = calculateStats (DiffEngine.compare A A).paragraphs := rfl
  obtain ⟨h1, h2, h3⟩ := calculateStats_all_equal _ hkey
  rw [hstats]
  exact ⟨fun p hp => (hkey p hp).1, h1, h2, h3⟩

/-- C4 witness: the concrete two-paragraph text `"x\n\ny"`, whose paragraph
fingerprints are distinct. -/
theorem claim_C4_witness :
    ((Tokenizer.splitParagraphs (str "x\n\ny")).map Tokenizer.fingerprint).Nodup ∧
    ((∀ p ∈ (DiffEngine.compare (str "x\n\ny") (str "x\n\ny")).paragraphs,
        ∀ op ∈ p.operations, op.type = OpType.equal) ∧
      (DiffEngine.compare (str "x\n\ny") (str "x\n\ny")).stats.wordsAdded = 0 ∧
      (DiffEngine.compare (str "x\n\ny") (str "x\n\ny")).stats.wordsDeleted = 0 ∧
      (DiffEngine.compare (str "x\n\ny")
        (str "x\n\ny")).stats.paragraphsMoved = 0) :=
  ⟨by decide, claim_C4_amended (str "x\n\ny") (by decide)⟩

end DiffEngine

namespace Tokenizer

theorem head_dropWhile_false (p : Nat → Bool) :
    ∀ (l : Str) (c : Nat), (l.dropWhile p).head? = some c → p c = false
  | [], c, h => by simp at h
  | a :: r, c, h => by
    rw [List.dropWhile_cons] at h
    by_cases hp : p a = true
    · rw [if_pos hp] at h
      exact head_dropWhile_false p r c h
    · rw [if_neg hp] at h
      simp only [List.head?_cons, Option.some.injEq] at h
      rw [← h]
      exact Bool.eq_false_iff.mpr hp

theorem dropWhile_head_false (p : Nat → Bool) (l : Str)
    (h : ∀ c, l.head? = some c → p c = false) : l.dropWhile p = l := by
  cases l with
  | nil => rfl
  | cons a r =>
    rw [List.dropWhile_cons, if_neg (by simp [h a rfl])]

theorem mem_of_getLastq {α : Type} {l : List α} {c : α}
    (h : l.getLast? = some c) : c ∈ l := by
  rw [List.getLast?_eq_head?_reverse] at h
  rw [← List.mem_reverse]
  cases hl : l.reverse with
  | nil => rw [hl] at h; simp at h
  | cons a r =>
    rw [hl] at h
    simp only [List.head?_cons, Option.some.injEq] at h
    rw [← h]
    exact List.mem_cons_self _ _

theorem tokenizeAux_nil (f i : Nat) : tokenizeAux f i ([] : Str) = [] := by
  cases f with
  | zero => rfl
  | succ f => rfl

theorem tokenizeAux_concat :
    ∀ (fuel : Nat) (s : Str) (idx : Nat), s.length ≤ fuel → s ≠ [] →
      (∀ c, s.head? = some c → isWsCp c = false) →
      (∀ c, s.getLast? = some c → isWsCp c = false) →
      ((tokenizeAux fuel idx s).map (fun w => w.text ++ w.trailingSpace)).foldr
          (· ++ ·) []
        = s ++ [0x20] := by
  intro fuel
  induction fuel with
  | zero =>
    intro s idx hlen hne _ _
    exact absurd (List.length_eq_zero.mp (by omega)) hne
  | succ fuel ih =>
    intro s idx hlen hne hhead hlast
    simp only [tokenizeAux]
    rw [dropWhile_head_false isWsCp s hhead]
    rw [if_neg (by simp only [List.isEmpty_iff]; exact hne)]
    have hsw : s.takeWhile (fun c => !isWsCp c) ++ s.dropWhile (fun c => !isWsCp c)
        = s := by simp
    have hrest : (s.dropWhile (fun c => !isWsCp c)).takeWhile isWsCp
        ++ (s.dropWhile (fun c => !isWsCp c)).dropWhile isWsCp
        = s.dropWhile (fun c => !isWsCp c) := by simp
    have hw : s.takeWhile (fun c => !isWsCp c) ≠ [] := by
      cases s with
      | nil => exact absurd rfl hne
      | cons a r =>
        rw [List.takeWhile_cons, if_pos (by simp [hhead a rfl])]
        simp
    by_cases hr2 : (s.dropWhile (fun c => !isWsCp c)).dropWhile isWsCp = []
    · have hrestnil : s.dropWhile (fun c => !isWsCp c) = [] := by
        by_contra hrne
        have hallws : ∀ x ∈ s.dropWhile (fun c => !isWsCp c), isWsCp x = true :=
          List.dropWhile_eq_nil_iff.mp hr2
        obtain ⟨c, hc⟩ := Option.isSome_iff_exists.mp
          (List.getLast?_isSome.mpr hrne)
        have hcs : s.getLast? = some c := by
          rw [← hsw, List.getLast?_append, hc]
          rfl
        have hf := hlast c hcs
        rw [hallws c (mem_of_getLastq hc)] at hf
        exact absurd hf (by simp)
      rw [hr2, tokenizeAux_nil, hrestnil]
      rw [hrestnil, List.append_nil] at hsw
      simp only [List.takeWhile_nil, List.isEmpty_nil, if_true]
      simp only [List.map_cons, List.map_nil, List.foldr_cons, List.foldr_nil]
      rw [List.append_nil, hsw]
    · have hrne : s.dropWhile (fun c => !isWsCp c) ≠ [] := by
        intro hx
        rw [hx] at hr2
        exact hr2 rfl
      have ht : (s.dropWhile (fun c => !isWsCp c)).takeWhile isWsCp ≠ [] := by
        cases hrl : s.dropWhile (fun c => !isWsCp c) with
        | nil => exact absurd hrl hrne
        | cons a r =>
          have hha : isWsCp a = true := by
            have := head_dropWhile_false (fun c => !isWsCp c) s a
              (by rw [hrl]; rfl)
            simpa using this
          rw [List.takeWhile_cons, if_pos hha]
          simp
      rw [if_neg (by simp only [List.isEmpty_iff]; exact ht)]
      have hs2 : s = (s.takeWhile (fun c => !isWsCp c)
          ++ (s.dropWhile (fun c => !isWsCp c)).takeWhile isWsCp)
          ++ (s.dropWhile (fun c => !isWsCp c)).dropWhile isWsCp := by
        rw [List.append_assoc, hrest, hsw]
      have hlen2 : ((s.dropWhile (fun c => !isWsCp c)).dropWhile isWsCp).length
          ≤ fuel := by
        have h1 : 0 < (s.takeWhile (fun c => !isWsCp c)).length :=
          List.length_pos.mpr hw
        have h2 : 0 < ((s.dropWhile (fun c => !isWsCp c)).takeWhile isWsCp).length :=
          List.length_pos.mpr ht
        have h3 := congrArg List.length hs2
        simp only [List.length_append] at h3
        omega
      have hhead2 : ∀ c, ((s.dropWhile (fun c => !isWsCp c)).dropWhile
          isWsCp).head? = some c → isWsCp c = false :=
        fun c hc => head_dropWhile_false isWsCp _ c hc
      have hlast2 : ∀ c, ((s.dropWhile (fun c => !isWsCp c)).dropWhile
          isWsCp).getLast? = some c → isWsCp c = false := by
        intro c hc
        apply hlast c
        rw [hs2, List.getLast?_append, hc]
        rfl
      have hih := ih ((s.dropWhile (fun c => !isWsCp c)).dropWhile isWsCp)
        (idx + 1) hlen2 hr2 hhead2 hlast2
      simp only [List.map_cons, List.foldr_cons]
      rw [hih]
      conv_rhs => rw [hs2]
      rw [List.append_assoc, List.append_assoc, List.append_assoc]

theorem tokenizeWords_concat (s : Str) (hne : s ≠ [])
    (hhead : ∀ c, s.head? = some c → isWsCp c = false)
    (hlast : ∀ c, s.getLast? = some c → isWsCp c = false) :
    ((tokenizeWords s).map (fun w => w.text ++ w.trailingSpace)).foldr
        (· ++ ·) []
      = s ++ [0x20] :=
  tokenizeAux_concat s.length s 0 le_rfl hne hhead hlast

theorem trim_facts (q : Str) (h : trim q ≠ []) :
    (∀ c, (trim q).head? = some c → isWsCp c = false) ∧
    (∀ c, (trim q).getLast? = some c → isWsCp c = false) := by
  unfold trim at *
  constructor
  · intro c hc
    rw [List.head?_reverse] at hc
    have hT : (q.dropWhile isWsCp).reverse.takeWhile isWsCp
        ++ (q.dropWhile isWsCp).reverse.dropWhile isWsCp
        = (q.dropWhile isWsCp).reverse := by simp
    have h2 : (q.dropWhile isWsCp).reverse.getLast? = some c := by
      rw [← hT, List.getLast?_append, hc]
      rfl
    rw [List.getLast?_reverse] at h2
    exact head_dropWhile_false isWsCp q c h2
  · intro c hc
    rw [List.getLast?_reverse] at hc
    exact head_dropWhile_false isWsCp _ c hc

theorem splitParagraphs_mem_facts (t : Str) :
    ∀ p ∈ splitParagraphs t, p ≠ [] ∧
      (∀ c, p.head? = some c → isWsCp c = false) ∧
      (∀ c, p.getLast? = some c → isWsCp c = false) := by
  intro p hp
  unfold splitParagraphs at hp
  have h1 := List.of_mem_filter hp
  have h2 := List.mem_of_mem_filter hp
  obtain ⟨q, _, hqp⟩ := List.mem_map.mp h2
  have hpne : p ≠ [] := by
    intro hnil
    rw [hnil] at h1
    simp at h1
  rw [← hqp] at hpne ⊢
  exact ⟨hpne, (trim_facts q hpne).1, (trim_facts q hpne).2⟩

theorem splitParagraphs_getD_facts (t : Str) (i : Nat)
    (h : i < (splitParagraphs t).length) :
    (splitParagraphs t).getD i [] ≠ [] ∧
    (∀ c, ((splitParagraphs t).getD i []).head? = some c → isWsCp c = false) ∧
    (∀ c, ((splitParagraphs t).getD i []).getLast? = some c →
      isWsCp c = false) := by
  have hmem : (splitParagraphs t).getD i [] ∈ splitParagraphs t := by
    rw [List.getD_eq_getElem _ _ h]
    exact List.getElem_mem h
  exact splitParagraphs_mem_facts t _ hmem

end Tokenizer

namespace DiffEngine

open Tokenizer

theorem eqDelWords_delete_map_id (l : List Token) :
    eqDelWords (l.map (fun w => ⟨OpType.delete, w⟩)) = l := by
  induction l with
  | nil => rfl
  | cons x rest ih => simp only [List.map_cons, eqDelWords_delete_cons, ih]

theorem eqInsWords_insert_map_id (l : List Token) :
    eqInsWords (l.map (fun w => ⟨OpType.insert, w⟩)) = l := by
  induction l with
  | nil => rfl
  | cons x rest ih => simp only [List.map_cons, eqInsWords_insert_cons, ih]

theorem alignLoop_shape (origP revP : List Str) (moves : List Move)
    (hm : ∀ m ∈ moves, m.fromIndex < origP.length ∧
      origP.getD m.fromIndex [] = m.text) :
    ∀ (fuel i j : Nat), ∀ a ∈ alignLoop origP revP moves fuel i j,
      AlignShape origP revP a := by
  intro fuel
  induction fuel with
  | zero =>
    intro i j a ha
    simp only [alignLoop] at ha
    exact absurd ha (List.not_mem_nil a)
  | succ fuel ih =>
    intro i j a ha
    simp only [alignLoop] at ha
    by_cases hout : i < origP.length ∨ j < revP.length
    swap
    · rw [if_neg hout] at ha
      exact absurd ha (List.not_mem_nil a)
    · rw [if_pos hout] at ha
      by_cases h1 : j < revP.length ∧ j ∈ moves.map (·.toIndex)
      · rw [if_pos h1] at ha
        obtain ⟨m, hmg, hmem, hto⟩ := moveMapGet_some h1.2
        rw [hmg] at ha
        rcases List.mem_cons.mp ha with hh | htl
        · rw [hh]
          simp only [AlignShape]
          refine ⟨?_, ?_, ?_, ?_⟩
          · intro oi hoi
            injection hoi with hoi
            rw [← hoi]
            exact ⟨(hm m hmem).1, by rw [(hm m hmem).2]⟩
          · intro ri hri
            injection hri with hri
            rw [← hri]
            exact ⟨h1.1, rfl⟩
          · intro hc
            exact absurd hc (by decide)
          · intro hc
            exact absurd hc (by decide)
        · exact ih i (j + 1) a htl
      · rw [if_neg h1] at ha
        by_cases h2 : i < origP.length ∧ i ∈ moves.map (·.fromIndex)
        · rw [if_pos h2] at ha
          exact ih (i + 1) j a ha
        · rw [if_neg h2] at ha
          by_cases h3 : i < origP.length ∧ j < revP.length
          · rw [if_pos h3] at ha
            by_cases hc1 : Tokenizer.fingerprint (origP.getD i [])
                = Tokenizer.fingerprint (revP.getD j [])
            · rw [if_pos hc1] at ha
              rcases List.mem_cons.mp ha with hh | htl
              · rw [hh]
                simp only [AlignShape]
                refine ⟨?_, ?_, ?_, ?_⟩
                · intro oi hoi
                  injection hoi with hoi
                  rw [← hoi]
                  exact ⟨h3.1, rfl⟩
                · intro ri hri
                  injection hri with hri
                  rw [← hri]
                  exact ⟨h3.2, rfl⟩
                · intro hc
                  exact absurd hc (by decide)
                · intro hc
                  exact absurd hc (by decide)
              · exact ih (i + 1) (j + 1) a htl
            · rw [if_neg hc1] at ha
              by_cases hc2 : paragraphSimilarity (origP.getD i [])
                  (revP.getD j []) > 3 / 10
              · rw [if_pos hc2] at ha
                rcases List.mem_cons.mp ha with hh | htl
                · rw [hh]
                  simp only [AlignShape]
                  refine ⟨?_, ?_, ?_, ?_⟩
                  · intro oi hoi
                    injection hoi with hoi
                    rw [← hoi]
                    exact ⟨h3.1, rfl⟩
                  · intro ri hri
                    injection hri with hri
                    rw [← hri]
                    exact ⟨h3.2, rfl⟩
                  · intro hc
                    exact absurd hc (by decide)
                  · intro hc
                    exact absurd hc (by decide)
                · exact ih (i + 1) (j + 1) a htl
              · rw [if_neg hc2] at ha
                by_cases hc3 :
                    (if j + 1 < revP.length then
                      paragraphSimilarity (origP.getD i [])
                        (revP.getD (j + 1) []) else 0)
                    < (if i + 1 < origP.length then
                      paragraphSimilarity (origP.getD (i + 1) [])
                        (revP.getD j []) else 0) ∧
                    3 / 10 < (if i + 1 < origP.length then
                      paragraphSimilarity (origP.getD (i + 1) [])
                        (revP.getD j []) else 0)
                · rw [if_pos hc3] at ha
                  rcases List.mem_cons.mp ha with hh | htl
                  · rw [hh]
                    simp only [AlignShape]
                    refine ⟨?_, ?_, ?_, ?_⟩
                    · intro oi hoi
                      injection hoi with hoi
                      rw [← hoi]
                      exact ⟨h3.1, rfl⟩
                    · intro ri hri
                      exact absurd hri (by simp)
                    · intro hc
                      exact absurd hc (by decide)
                    · intro hc
                      trivial
                  · exact ih (i + 1) j a htl
                · rw [if_neg hc3] at ha
                  by_cases hc4 : 3 / 10 < (if j + 1 < revP.length then
                      paragraphSimilarity (origP.getD i [])
                        (revP.getD (j + 1) []) else 0)
                  · rw [if_pos hc4] at ha
                    rcases List.mem_cons.mp ha with hh | htl
                    · rw [hh]
                      simp only [AlignShape]
                      refine ⟨?_, ?_, ?_, ?_⟩
                      · intro oi hoi
                        exact absurd hoi (by simp)
                      · intro ri hri
                        injection hri with hri
                        rw [← hri]
                        exact ⟨h3.2, rfl⟩
                      · intro hc
                        trivial
                      · intro hc
                        exact absurd hc (by decide)
                    · exact ih i (j + 1) a htl
                  · rw [if_neg hc4] at ha
                    rcases List.mem_cons.mp ha with hh | htl
                    · rw [hh]
                      simp only [AlignShape]
                      refine ⟨?_, ?_, ?_, ?_⟩
                      · intro oi hoi
                        injection hoi with hoi
                        rw [← hoi]
                        exact ⟨h3.1, rfl⟩
                      · intro ri hri
                        injection hri with hri
                        rw [← hri]
                        exact ⟨h3.2, rfl⟩
                      · intro hc
                        exact absurd hc (by decide)
                      · intro hc
                        exact absurd hc (by decide)
                    · exact ih (i + 1) (j + 1) a htl
          · rw [if_neg h3] at ha
            by_cases h4 : i < origP.length
            · rw [if_pos h4] at ha
              rcases List.mem_append.mp ha with hl | htl
              · by_cases hmv : i ∈ moves.map (·.fromIndex)
                · rw [if_pos hmv] at hl
                  exact absurd hl (List.not_mem_nil a)
                · rw [if_neg hmv] at hl
                  rcases List.mem_singleton.mp hl with hh
                  rw [hh]
                  simp only [AlignShape]
                  refine ⟨?_, ?_, ?_, ?_⟩
                  · intro oi hoi
                    injection hoi with hoi
                    rw [← hoi]
                    exact ⟨h4, rfl⟩
                  · intro ri hri
                    exact absurd hri (by simp)
                  · intro hc
                    exact absurd hc (by decide)
                  · intro hc
                    trivial
              · exact ih (i + 1) j a htl
            · rw [if_neg h4] at ha
              have hj : j < revP.length := by
                rcases hout with h | h
                · exact absurd h h4
                · exact h
              rcases List.mem_append.mp ha with hl | htl
              · by_cases hmv : j ∈ moves.map (·.toIndex)
                · rw [if_pos hmv] at hl
                  exact absurd hl (List.not_mem_nil a)
                · rw [if_neg hmv] at hl
                  rcases List.mem_singleton.mp hl with hh
                  rw [hh]
                  simp only [AlignShape]
                  refine ⟨?_, ?_, ?_, ?_⟩
                  · intro oi hoi
                    exact absurd hoi (by simp)
                  · intro ri hri
                    injection hri with hri
                    rw [← hri]
                    exact ⟨hj, rfl⟩
                  · intro hc
                    trivial
                  · intro hc
                    exact absurd hc (by decide)
              · exact ih i (j + 1) a htl

end DiffEngine

namespace DiffEngine

open Tokenizer

theorem compare_paragraph_facts (A B : Str) :
    ∀ p ∈ (DiffEngine.compare A B).paragraphs,
      (∀ oi, p.originalIndex = some oi →
        opsOldString p.operations
          = (Tokenizer.splitParagraphs A).getD oi [] ++ [0x20]) ∧
      (∀ ri, p.revisedIndex = some ri →
        (eqInsWords p.operations).map Token.text
          = (Tokenizer.tokenizeWords
              ((Tokenizer.splitParagraphs B).getD ri [])).map Token.text) := by
  intro p hp
  simp only [DiffEngine.compare] at hp
  rw [alignParagraphs] at hp
  obtain ⟨al, hal, halp⟩ := List.mem_map.mp hp
  have hm : ∀ m ∈ detectMovedParagraphs (Tokenizer.splitParagraphs A)
      (Tokenizer.splitParagraphs B),
      m.fromIndex < (Tokenizer.splitParagraphs A).length ∧
      (Tokenizer.splitParagraphs A).getD m.fromIndex [] = m.text := by
    intro m hmm2
    have hf := (detectMoved_facts (Tokenizer.splitParagraphs A)
      (Tokenizer.splitParagraphs B)).2.2 m hmm2
    exact ⟨hf.1, hf.2.2⟩
  have hshape := alignLoop_shape _ _ _ hm _ 0 0 al hal
  simp only [AlignShape] at hshape
  obtain ⟨hsO, hsR, hsA, hsD⟩ := hshape
  rw [← halp]
  constructor
  · intro oi hoi
    simp only [alignmentToParagraph] at hoi ⊢
    obtain ⟨holt, hoeq⟩ := hsO oi hoi
    have hfacts := splitParagraphs_getD_facts A oi holt
    cases htype : al.type with
    | added =>
      rw [hsA htype] at hoi
      exact absurd hoi (by simp)
    | deleted =>
      simp only [alignmentOps, htype]
      rw [hoeq, Option.getD_some]
      rw [opsOldString, eqDelWords_delete_map_id]
      exact tokenizeWords_concat _ hfacts.1 hfacts.2.1 hfacts.2.2
    | unchanged =>
      simp only [alignmentOps, htype]
      rw [hoeq, Option.getD_some]
      rw [opsOldString, (myersDiff_reconstruct _ _).1]
      exact tokenizeWords_concat _ hfacts.1 hfacts.2.1 hfacts.2.2
    | modified =>
      simp only [alignmentOps, htype]
      rw [hoeq, Option.getD_some]
      rw [opsOldString, (myersDiff_reconstruct _ _).1]
      exact tokenizeWords_concat _ hfacts.1 hfacts.2.1 hfacts.2.2
    | moved =>
      simp only [alignmentOps, htype]
      rw [hoeq, Option.getD_some]
      rw [opsOldString, (myersDiff_reconstruct _ _).1]
      exact tokenizeWords_concat _ hfacts.1 hfacts.2.1 hfacts.2.2
  · intro ri hri
    simp only [alignmentToParagraph] at hri ⊢
    obtain ⟨hrlt, hreq⟩ := hsR ri hri
    cases htype : al.type with
    | deleted =>
      rw [hsD htype] at hri
      exact absurd hri (by simp)
    | added =>
      simp only [alignmentOps, htype]
      rw [hreq, Option.getD_some]
      rw [eqInsWords_insert_map_id]
    | unchanged =>
      simp only [alignmentOps, htype]
      rw [hreq, Option.getD_some]
      exact (myersDiff_reconstruct _ _).2.1
    | modified =>
      simp only [alignmentOps, htype]
      rw [hreq, Option.getD_some]
      exact (myersDiff_reconstruct _ _).2.1
    | moved =>
      simp only [alignmentOps, htype]
      rw [hreq, Option.getD_some]
      exact (myersDiff_reconstruct _ _).2.1

/-- C5 counterexample: tokenization forces a single trailing space onto the
last word of a paragraph (`match[2] || ' '`), so on `compare("a", "a")` the
concatenated `text + trailingSpace` of the `equal`+`delete` operations of
paragraph 0 is `"a "`, not the paragraph text `"a"`: the round trip is off by
one appended space. -/
theorem claim_C5_counterexample :
    ¬ (opsOldString ((DiffEngine.compare (str "a") (str "a")).paragraphs.getD 0
          ⟨AlignType.unchanged, none, none, [], none, none⟩).operations
        = (Tokenizer.splitParagraphs (str "a")).getD 0 []) := by
  decide

/-- C5 (amended): for every ParagraphDiff carrying an original index,
concatenating `text + trailingSpace` of its `equal`+`delete` operations in
emitted order reproduces the original paragraph text *plus one trailing
space* (the separator forced onto the final token); for every ParagraphDiff
carrying a revised index, the `equal`+`insert` operations reproduce the
*word texts* of the revised paragraph in order (the separators attached to
`equal` operations come from the original paragraph's tokens, so only the
texts are faithful on the revised side). -/
theorem claim_C5_amended (A B : Str) :
    ∀ p ∈ (DiffEngine.compare A B).paragraphs,
      (∀ oi, p.originalIndex = some oi →
        opsOldString p.operations
          = (Tokenizer.splitParagraphs A).getD oi [] ++ [0x20]) ∧
      (∀ ri, p.revisedIndex = some ri →
        (eqInsWords p.operations).map Token.text
          = (Tokenizer.tokenizeWords
              ((Tokenizer.splitParagraphs B).getD ri [])).map Token.text) :=
  compare_paragraph_facts A B

/-- C5 witness: on `compare("a", "a")` the single paragraph diff carries
original index 0 and its `equal`+`delete` operations concatenate to
`"a" ++ " "`. -/
theorem claim_C5_witness :
    ((DiffEngine.compare (str "a") (str "a")).paragraphs.getD 0
        ⟨AlignType.unchanged, none, none, [], none, none⟩
      ∈ (DiffEngine.compare (str "a") (str "a")).paragraphs) ∧
    opsOldString ((DiffEngine.compare (str "a") (str "a")).paragraphs.getD 0
        ⟨AlignType.unchanged, none, none, [], none, none⟩).operations
      = (Tokenizer.splitParagraphs (str "a")).getD 0 [] ++ [0x20] :=
  ⟨by decide,
    (claim_C5_amended (str "a") (str "a") _ (by decide)).1 0 (by decide)⟩

end DiffEngine
